import Mathlib

/-!
Verification of the Verilator coverage-instrumentation pass (src/V3Coverage.cpp)
against its natural-language specification.

The development shallowly embeds the pass:
* the line-range renderer (linesFirstLast / linesCov),
* the statement-level visitor (CoverageVisitor visit methods) over an
  explicit statement tree with an explicit CheckState,
* the toggle-coverage type decomposition (toggleVarRecurse).

Machine strings are modelled as Lean String (lists of characters); the
C++ int is modelled as Int.
-/

/-! ## Decimal rendering of numbers (model of cvtToStr)

We render decimals with an explicit fuel argument so that every
definition is structurally recursive and evaluates by kernel reduction.
-/

/-- Little-endian decimal digits of a natural number; the first argument
is fuel bounding the recursion depth (fuel = n always suffices). -/
def natDigitsAux : Nat → Nat → List Nat
  | 0, _ => []
  | _ + 1, 0 => []
  | fuel + 1, n + 1 => ((n + 1) % 10) :: natDigitsAux fuel ((n + 1) / 10)

/-- Little-endian decimal digits of a natural number. -/
def natDigits (n : Nat) : List Nat := natDigitsAux n n

/-- The character for a decimal digit. -/
def dChar (d : Nat) : Char := Char.ofNat (48 + d)

/-- Decimal character rendering of a natural number, most significant first. -/
def natChars (n : Nat) : List Char :=
  if n = 0 then ['0'] else ((natDigits n).map dChar).reverse

/-- Decimal character rendering of an integer (model of cvtToStr). -/
def intChars (i : Int) : List Char :=
  if i < 0 then '-' :: natChars i.natAbs else natChars i.toNat

/-- Model of cvtToStr from the C++ sources: decimal rendering of an int. -/
def cvtToStr (i : Int) : String := ⟨intChars i⟩

/-! ## The line-range renderer (linesFirstLast and linesCov) -/

/-- Source model (V3Coverage.cpp linesFirstLast): render one run of
consecutive line numbers.  A singleton run renders as a bare number, a
non-degenerate run as first-last, and a run whose endpoints include the
sentinel 0 renders as the empty string. -/
def linesFirstLast (first last : Int) : List Char :=
  if first != 0 && first == last then intChars first
  else if first != 0 && last != 0 then intChars first ++ '-' :: intChars last
  else []

/-- Source model (V3Coverage.cpp linesCov loop body): fold over the sorted
set of lines maintaining the current run (first,last) and the output
accumulated so far.  first = 0 encodes that no run is open, exactly as in
the C++ code. -/
def linesCovAux : List Int → Int → Int → List Char → List Char
  | [], first, last, out =>
      if first != 0 then
        (if out.isEmpty then linesFirstLast first last
         else out ++ ',' :: linesFirstLast first last)
      else out
  | linen :: rest, first, last, out =>
      if first == 0 then linesCovAux rest linen linen out
      else if linen == last + 1 then linesCovAux rest first (last + 1) out
      else linesCovAux rest linen linen
            (if out.isEmpty then linesFirstLast first last
             else out ++ ',' :: linesFirstLast first last)

/-- Source model (V3Coverage.cpp linesCov): comma separated list of ranged
numbers for the sorted set of tracked lines. -/
def renderLines (lines : List Int) : String := ⟨linesCovAux lines 0 0 []⟩

/-! ## Parsing the rendered string back (the specified inverse) -/

/-- Split a character list on a separator character; mirrors splitting a
string on commas (or on hyphens). -/
def splitOnC (c : Char) : List Char → List (List Char)
  | [] => [[]]
  | x :: xs =>
      match splitOnC c xs with
      | [] => if x == c then [[], []] else [[x]]
      | p :: ps => if x == c then [] :: p :: ps else (x :: p) :: ps

/-- Read a decimal numeral, most significant digit first. -/
def readNat (cs : List Char) : Nat :=
  cs.foldl (fun a c => 10 * a + (c.toNat - 48)) 0

/-- All integers from a to b inclusive (empty when b < a). -/
def intRangeList (a b : Int) : List Int :=
  (List.range (b - a + 1).toNat).map (fun i : Nat => a + (i : Int))

/-- Expand one comma-separated piece of the rendered string: a bare number
denotes itself, and first-last denotes the closed range. -/
def parsePiece (cs : List Char) : List Int :=
  match splitOnC '-' cs with
  | [p] => [((readNat p : Nat) : Int)]
  | [p, q] => intRangeList (readNat p) (readNat q)
  | _ => []

/-- Parse a rendered line-range string back into the set it denotes:
split on commas, split each piece on hyphens, and expand. -/
def parseLinesCov (s : String) : List Int :=
  if s.data.isEmpty then [] else (splitOnC ',' s.data).flatMap parsePiece

/-! ## Specification-side structured view of the renderer, used in proofs -/

/-- The maximal runs of consecutive integers, starting from an open run
(first,last); mirrors the accumulator of linesCovAux. -/
def toRangesFrom (first last : Int) : List Int → List (Int × Int)
  | [] => [(first, last)]
  | n :: rest =>
      if n == last + 1 then toRangesFrom first (last + 1) rest
      else (first, last) :: toRangesFrom n n rest

/-- Rendering of one maximal run. -/
def pieceChars (r : Int × Int) : List Char :=
  if r.1 == r.2 then intChars r.1 else intChars r.1 ++ '-' :: intChars r.2

/-- Join pieces with commas. -/
def joinComma : List (List Char) → List Char
  | [] => []
  | [p] => p
  | p :: ps => p ++ ',' :: joinComma ps

/-- Join rendered runs with commas. -/
def renderRanges (rs : List (Int × Int)) : List Char :=
  joinComma (rs.map pieceChars)

/-! ## Global configuration consumed by the pass (v3Global.opt queries) -/

/-- The configuration flags the pass queries (read-only). -/
structure Opts where
  coverageLine : Bool
  coverageUser : Bool
  traceCoverage : Bool
deriving DecidableEq, Repr

/-- Source-location metadata carried by every node (FileLine). -/
structure FLine where
  fileno : Nat
  basename : String
  firstLineno : Int
  lastLineno : Int
  coverageOn : Bool
deriving DecidableEq, Repr

/-- State save-restored on each new coverage scope/block (CheckState). -/
structure CheckState where
  m_on : Bool
  m_inModOff : Bool
  m_handle : Nat
  m_nodep : FLine
deriving DecidableEq, Repr

/-- Model of CheckState::lineCoverageOn. -/
def lcOn (g : Opts) (im onb : Bool) (fl : FLine) : Bool :=
  onb && !im && fl.coverageOn && g.coverageLine

/-- CheckState::lineCoverageOn packaged on the state record. -/
def lineCoverageOn (g : Opts) (st : CheckState) (fl : FLine) : Bool :=
  lcOn g st.m_inModOff st.m_on fl

/-- A coverage declaration record (AstCoverDecl). -/
structure CoverDecl where
  page : String
  comment : String
  linescov : String
  offset : Nat
  hier : String
deriving DecidableEq, Repr

/-! ## The statement tree

Statement nodes of the syntax tree, restricted to the kinds the
CoverageVisitor distinguishes; the constructor other stands for every
node handled by the default visit (iterate children, then track lines).
The lists of children are a mutually inductive list type so that all
functions over the tree are structurally recursive and kernel-reducible.
-/

mutual
inductive Stmt where
  | ifS (fl : FLine) (thens elses : StmtList)
  | caseItem (fl : FLine) (stmts : StmtList)
  | stop (fl : FLine)
  | pragma (fl : FLine) (isOff : Bool)
  | coverB (fl : FLine) (stmts covincs : StmtList)
  | beginB (fl : FLine) (name : String) (stmts : StmtList)
  | ftask (fl : FLine) (dpiImport : Bool) (stmts : StmtList)
  | whileS (fl : FLine) (stmts : StmtList)
  | proced (fl : FLine) (stmts : StmtList)
  | coverInc (fl : FLine) (decl : CoverDecl)
  | incAssign (fl : FLine) (varname : String)
  | other (fl : FLine) (stmts : StmtList)
deriving Repr
inductive StmtList where
  | nil
  | cons (s : Stmt) (rest : StmtList)
deriving Repr
end

/-- Append on the mutually inductive statement lists. -/
def StmtList.append : StmtList → StmtList → StmtList
  | .nil, l => l
  | .cons s r, l => .cons s (r.append l)

instance : Append StmtList := ⟨StmtList.append⟩

theorem StmtList.nil_append (l : StmtList) : StmtList.nil ++ l = l := rfl

theorem StmtList.cons_append (s : Stmt) (r l : StmtList) :
    StmtList.cons s r ++ l = StmtList.cons s (r ++ l) := rfl

theorem StmtList.append_nil : ∀ (l : StmtList), l ++ StmtList.nil = l
  | .nil => rfl
  | .cons s r => by rw [StmtList.cons_append, StmtList.append_nil r]

/-! ## The visitor state -/

/-- All mutable visitor state threaded through the traversal: the current
CheckState, the handle counter, the handle-to-line-set table, the
name-collision table, the coverage declarations added to the module, the
trace variables added to the module, and the named-begin hierarchy. -/
structure VState where
  state : CheckState
  nextHandle : Nat
  handleLines : Nat → List Int
  varnames : List (String × Nat)
  decls : List CoverDecl
  modVars : List String
  beginHier : String
  modName : String
  modIsClass : Bool

/-- Model of createHandle: allocate a fresh handle, set enabled, record the
establishing node. -/
def createHandle (fl : FLine) (vs : VState) : VState :=
  { vs with
    state := { m_on := true, m_inModOff := vs.state.m_inModOff,
               m_handle := vs.nextHandle + 1, m_nodep := fl },
    nextHandle := vs.nextHandle + 1 }

/-- Insert one line number into a sorted duplicate-free line set. -/
def insertSorted (x : Int) : List Int → List Int
  | [] => [x]
  | y :: ys =>
      if x < y then x :: y :: ys
      else if x == y then y :: ys
      else y :: insertSorted x ys

/-- Model of lineTrack: when line coverage is active and the node is in the
establishing node's file, insert every line of the node's extent into the
current handle's line set. -/
def lineTrack (g : Opts) (fl : FLine) (vs : VState) : VState :=
  { vs with
    handleLines :=
      if lineCoverageOn g vs.state fl && (vs.state.m_nodep.fileno == fl.fileno) then
        fun h =>
          if h = vs.state.m_handle then
            (intRangeList fl.firstLineno fl.lastLineno).foldl
              (fun acc l => insertSorted l acc) (vs.handleLines vs.state.m_handle)
          else vs.handleLines h
      else vs.handleLines }

/-- Model of linesCov: render the line set accumulated for the handle of
the given state. -/
def linesCov (vs : VState) (st : CheckState) : String :=
  renderLines (vs.handleLines st.m_handle)

/-- Model of traceNameForLine, including the name-collision suffixing via
the varnames table. -/
def traceNameForLine (vs : VState) (fl : FLine) (ty : String) : String × VState :=
  let name := "vlCoverageLineTrace_" ++ fl.basename ++ "__" ++ cvtToStr fl.firstLineno
              ++ "_" ++ ty
  let suffix := (vs.varnames.lookup name).getD 0
  let vs' := { vs with varnames := (name, suffix + 1) :: vs.varnames.eraseP (·.1 == name) }
  (if suffix != 0 then name ++ "_" ++ cvtToStr (suffix : Int) else name, vs')

/-- Model of newCoverInc: allocate a coverage declaration owned by the
module and return the increment node, paired with the trace-counter
variable and its update assignment when trace coverage is enabled. -/
def newCoverInc (g : Opts) (vs : VState) (fl : FLine) (hier pagePfx comment linescov : String)
    (offset : Nat) (traceName : String) : StmtList × VState :=
  let page := pagePfx ++ "/" ++ vs.modName
  let decl : CoverDecl := ⟨page, comment, linescov, offset, hier⟩
  let vs1 := { vs with decls := vs.decls ++ [decl] }
  if traceName != "" && g.traceCoverage && !vs.modIsClass then
    (.cons (.coverInc fl decl) (.cons (.incAssign fl traceName) .nil),
     { vs1 with modVars := vs1.modVars ++ [traceName] })
  else (.cons (.coverInc fl decl) .nil, vs1)

/-- One line-coverage emission step as the visitor performs it: generate
the trace name, render the tracked lines of the given state, and build the
increment through newCoverInc. -/
def emitCover (g : Opts) (vs : VState) (fl : FLine) (pagePfx tag : String) (offset : Nat)
    (st : CheckState) : StmtList × VState :=
  let tn := traceNameForLine vs fl tag
  newCoverInc g tn.2 fl "" pagePfx tag (linesCov tn.2 st) offset tn.1

/-- Is the else list exactly one trailing conditional (the else-if shape)? -/
def isSingleIf : StmtList → Bool
  | .cons (.ifS _ _ _) .nil => true
  | _ => false

/-- Is a statement list empty? -/
def StmtList.isNil : StmtList → Bool
  | .nil => true
  | _ => false

/-! ## The statement visitor (CoverageVisitor line-coverage traversal)

coverStmt models one visit call; it returns the replacement for the node
(none when the node is unlinked, as for a consumed scope-off pragma) and
the updated visitor state.  The marked flag models the user1 bit an
enclosing conditional sets on its trailing else-if before iterating it.
coverStmts models iterateAndNextNull over a statement list; only the head
of an else list can be marked.
-/

mutual

def coverStmt (g : Opts) (marked : Bool) (vs : VState) : Stmt → Option Stmt × VState
  | .ifS fl thens elses =>
      if vs.state.m_on then
        let lastState := vs.state
        let elsifB := !thens.isNil && isSingleIf elses
        let firstElsif := !marked && elsifB
        let contElsif := marked && elsifB
        let finalElsif := marked && !elsifB && !elses.isNil
        let rT := coverStmts g false (createHandle fl vs) thens
        let vsT := lineTrack g fl rT.2
        let ifState := vsT.state
        let rE := coverStmts g elsifB (createHandle fl { vsT with state := lastState }) elses
        let elseState := rE.2.state
        let vsD := { rE.2 with state := lastState }
        if !(firstElsif || contElsif || finalElsif) && lineCoverageOn g ifState fl
            && lineCoverageOn g elseState fl then
          let e1 := emitCover g vsD fl "v_branch" "if" 0 ifState
          let e2 := emitCover g e1.2 fl "v_branch" "else" 1 elseState
          (some (.ifS fl (rT.1 ++ e1.1) (rE.1 ++ e2.1)), { e2.2 with state := lastState })
        else if firstElsif || contElsif then
          if lineCoverageOn g ifState fl then
            let e1 := emitCover g vsD fl "v_line" "elsif" 0 ifState
            (some (.ifS fl (rT.1 ++ e1.1) rE.1), { e1.2 with state := lastState })
          else (some (.ifS fl rT.1 rE.1), vsD)
        else
          let h1 :=
            if lineCoverageOn g ifState fl then
              let e1 := emitCover g vsD fl "v_line" "if" 0 ifState
              (rT.1 ++ e1.1, e1.2)
            else (rT.1, vsD)
          let h2 :=
            if lineCoverageOn g elseState fl then
              let e2 := emitCover g h1.2 fl "v_line" "else" 1 elseState
              (rE.1 ++ e2.1, e2.2)
            else (rE.1, h1.2)
          (some (.ifS fl h1.1 h2.1), { h2.2 with state := lastState })
      else (some (.ifS fl thens elses), vs)
  | .caseItem fl stmts =>
      if lineCoverageOn g vs.state fl then
        let lastState := vs.state
        let r := coverStmts g false (createHandle fl vs) stmts
        if lineCoverageOn g r.2.state fl then
          let vsT := lineTrack g fl r.2
          let e := emitCover g vsT fl "v_line" "case" 0 vsT.state
          (some (.caseItem fl (r.1 ++ e.1)), { e.2 with state := lastState })
        else (some (.caseItem fl r.1), { r.2 with state := lastState })
      else (some (.caseItem fl stmts), vs)
  | .stop fl =>
      (some (.stop fl), { vs with state := { vs.state with m_on := false } })
  | .pragma fl isOff =>
      if isOff then (none, { vs with state := { vs.state with m_on := false } })
      else (some (.pragma fl isOff), lineTrack g fl vs)
  | .coverB fl stmts covincs =>
      let lastState := vs.state
      let r1 := coverStmts g false (createHandle fl vs) stmts
      let r2 := coverStmts g false r1.2 covincs
      if covincs.isNil && g.coverageUser then
        let vsT := lineTrack g fl r2.2
        let e := newCoverInc g vsT fl vsT.beginHier "v_user" "cover" (linesCov vsT vsT.state)
                   0 (vsT.beginHier ++ "_vlCoverageUserTrace")
        (some (.coverB fl r1.1 (r2.1 ++ e.1)), { e.2 with state := lastState })
      else (some (.coverB fl r1.1 r2.1), { r2.2 with state := lastState })
  | .beginB fl name stmts =>
      let savedHier := vs.beginHier
      let vs1 :=
        if name != "" then
          { vs with beginHier := vs.beginHier ++ (if vs.beginHier != "" then "." else "")
                                 ++ name }
        else vs
      let r := coverStmts g false vs1 stmts
      let vsT := lineTrack g fl r.2
      (some (.beginB fl name r.1), { vsT with beginHier := savedHier })
  | .ftask fl dpi stmts =>
      if dpi then (some (.ftask fl dpi stmts), vs)
      else
        let lastState := vs.state
        let r := coverStmts g false (createHandle fl vs) stmts
        if lineCoverageOn g r.2.state fl then
          let vsT := lineTrack g fl r.2
          let e := emitCover g vsT fl "v_line" "block" 0 vsT.state
          (some (.ftask fl dpi (r.1 ++ e.1)), { e.2 with state := lastState })
        else (some (.ftask fl dpi r.1), { r.2 with state := lastState })
  | .whileS fl stmts =>
      let lastState := vs.state
      let r := coverStmts g false (createHandle fl vs) stmts
      if lineCoverageOn g r.2.state fl then
        let vsT := lineTrack g fl r.2
        let e := emitCover g vsT fl "v_line" "block" 0 vsT.state
        (some (.whileS fl (r.1 ++ e.1)), { e.2 with state := lastState })
      else (some (.whileS fl r.1), { r.2 with state := lastState })
  | .proced fl stmts =>
      let lastState := vs.state
      let r := coverStmts g false (createHandle fl vs) stmts
      if lineCoverageOn g r.2.state fl then
        let vsT := lineTrack g fl r.2
        let e := emitCover g vsT fl "v_line" "block" 0 vsT.state
        (some (.proced fl (r.1 ++ e.1)), { e.2 with state := lastState })
      else (some (.proced fl r.1), { r.2 with state := lastState })
  | .coverInc fl d => (some (.coverInc fl d), lineTrack g fl vs)
  | .incAssign fl v => (some (.incAssign fl v), lineTrack g fl vs)
  | .other fl stmts =>
      let r := coverStmts g false vs stmts
      (some (.other fl r.1), lineTrack g fl r.2)

def coverStmts (g : Opts) (markedHead : Bool) (vs : VState) : StmtList → StmtList × VState
  | .nil => (.nil, vs)
  | .cons s rest =>
      let r1 := coverStmt g markedHead vs s
      let r2 := coverStmts g false r1.2 rest
      (match r1.1 with
       | none => r2.1
       | some s' => .cons s' r2.1, r2.2)

end

/-! ## Mirrors of the traversal used to state reachability facts -/

/-! Does a subtree contain a scope-off (COVERAGE_BLOCK_OFF) pragma? -/
mutual
def hasOffS : Stmt → Bool
  | .ifS _ t e => hasOffL t || hasOffL e
  | .caseItem _ l => hasOffL l
  | .stop _ => false
  | .pragma _ isOff => isOff
  | .coverB _ s c => hasOffL s || hasOffL c
  | .beginB _ _ l => hasOffL l
  | .ftask _ _ l => hasOffL l
  | .whileS _ l => hasOffL l
  | .proced _ l => hasOffL l
  | .coverInc _ _ => false
  | .incAssign _ _ => false
  | .other _ l => hasOffL l
def hasOffL : StmtList → Bool
  | .nil => false
  | .cons s r => hasOffS s || hasOffL r
end

/-- Does an optional replacement node contain a scope-off pragma? -/
def hasOffO : Option Stmt → Bool
  | none => false
  | some s => hasOffS s

/-! Mirror of the traversal that records whether any subtree that the
visitor skips (an if with coverage already off, a case arm without active
line coverage, a DPI-imported task) contains a scope-off pragma.  The
first component is true when no skipped subtree holds such a pragma, the
second threads the enabled flag exactly as the visitor does. -/
mutual
def noSkipS (g : Opts) (im : Bool) (onb : Bool) : Stmt → Bool × Bool
  | .ifS _ thens elses =>
      if onb then
        let a := noSkipL g im true thens
        let b := noSkipL g im true elses
        (a.1 && b.1, onb)
      else (!(hasOffL thens || hasOffL elses), onb)
  | .caseItem fl stmts =>
      if lcOn g im onb fl then
        let a := noSkipL g im true stmts
        (a.1, onb)
      else (!hasOffL stmts, onb)
  | .stop _ => (true, false)
  | .pragma _ isOff => if isOff then (true, false) else (true, onb)
  | .coverB _ stmts covincs =>
      let a := noSkipL g im true stmts
      let b := noSkipL g im a.2 covincs
      (a.1 && b.1, onb)
  | .beginB _ _ stmts => noSkipL g im onb stmts
  | .ftask _ dpi stmts =>
      if dpi then (!hasOffL stmts, onb)
      else
        let a := noSkipL g im true stmts
        (a.1, onb)
  | .whileS _ stmts =>
      let a := noSkipL g im true stmts
      (a.1, onb)
  | .proced _ stmts =>
      let a := noSkipL g im true stmts
      (a.1, onb)
  | .coverInc _ _ => (true, onb)
  | .incAssign _ _ => (true, onb)
  | .other _ stmts => noSkipL g im onb stmts
def noSkipL (g : Opts) (im : Bool) (onb : Bool) : StmtList → Bool × Bool
  | .nil => (true, onb)
  | .cons s r =>
      let a := noSkipS g im onb s
      let b := noSkipL g im a.2 r
      (a.1 && b.1, b.2)
end

/-! ## Toggle coverage: value types and reference expressions -/

/-- Variable access mode of a reference. -/
inductive Access where
  | read
  | write
deriving DecidableEq, Repr

/-- Which variable a reference is rooted in: the original signal or the
shadow (previous value) copy created for it. -/
inductive TRoot where
  | orig
  | shadow
deriving DecidableEq, Repr

/-- Reference expressions built by the toggle expander: variable
references, bit-range selects, array-element selects and struct-member
selects (AstVarRef, AstSel, AstArraySel, AstStructSel). -/
inductive TExpr where
  | varRef (root : TRoot) (acc : Access)
  | sel (base : TExpr) (lsb width : Int)
  | arraySel (base : TExpr) (idx : Int)
  | structSel (base : TExpr) (name : String)
deriving DecidableEq, Repr

/-- The variable a reference expression is rooted in. -/
def TExpr.rootVar : TExpr → TRoot
  | .varRef r _ => r
  | .sel b _ _ => b.rootVar
  | .arraySel b _ => b.rootVar
  | .structSel b _ => b.rootVar

/-- Model of ToggleEnt: a comment path plus how to reach this element in
the original variable and in the shadow variable. -/
structure ToggleEnt where
  comment : String
  varRefp : TExpr
  chgRefp : TExpr
deriving DecidableEq, Repr

/-- One leaf toggle-coverage point (AstCoverToggle built by
toggleVarBottom): the declaration comment and the pair of references the
runtime compares. -/
structure ToggleLeaf where
  comment : String
  varRefp : TExpr
  chgRefp : TExpr
deriving DecidableEq, Repr

/-! Data types as the toggle expander distinguishes them: basic
bit-vectors (ranged or not), unpacked and packed arrays, packed and
unpacked structs, unions, and every other kind (which the pass treats as
fatal).  Members carry their name and their packed bit offset (lsb). -/
mutual
inductive DType where
  | basic (ranged : Bool) (lo hi : Int)
  | unpackArray (lo hi : Int) (sub : DType)
  | packArray (lo hi : Int) (sub : DType)
  | structT (packed : Bool) (members : MemList)
  | unionT (members : MemList)
  | unsupported (nm : String)
deriving Repr
inductive Mem where
  | mk (name : String) (lsb : Int) (sub : DType)
deriving Repr
inductive MemList where
  | nil
  | cons (m : Mem) (rest : MemList)
deriving Repr
end

/-! Bit width of a data type as elaboration records it. -/
mutual
def DType.width : DType → Int
  | .basic ranged lo hi => if ranged then hi - lo + 1 else 1
  | .unpackArray _ _ sub => sub.width
  | .packArray lo hi sub => (hi - lo + 1) * sub.width
  | .structT _ ms => ms.widthSum
  | .unionT ms => ms.widthHead
  | .unsupported _ => 0
def MemList.widthSum : MemList → Int
  | .nil => 0
  | .cons (.mk _ _ sub) rest => sub.width + rest.widthSum
def MemList.widthHead : MemList → Int
  | .nil => 0
  | .cons (.mk _ _ sub) _ => sub.width
end

/-- Model of toggleVarBottom: build the leaf coverage point for one
terminal element (its declaration comment is the variable name followed
by the accumulated index/member path). -/
def toggleVarBottom (vn : String) (above : ToggleEnt) : ToggleLeaf :=
  ⟨vn ++ above.comment, above.varRefp, above.chgRefp⟩

/-- Iterate a loop body that may fail over a list of indices, aborting at
the first failure and concatenating the produced leaves in order (the
shape of the per-index for loops of toggleVarRecurse). -/
def exceptMapCat {α : Type} (f : α → Except String (List ToggleLeaf)) :
    List α → Except String (List ToggleLeaf)
  | [] => .ok []
  | x :: xs => do
      let a ← f x
      let b ← exceptMapCat f xs
      pure (a ++ b)

/-! Model of toggleVarRecurse: decompose a data type into leaf toggle
points.  Each arm mirrors the corresponding branch of the C++ function,
including the unpacked-struct arm building both new references from the
var side, and the union arm descending into the first member only.  The
fatal error for an unknown type kind is modelled by the error branch of
Except. -/
mutual
def toggleVarRecurse (vn : String) : DType → Int → ToggleEnt →
    Except String (List ToggleLeaf)
  | .basic ranged lo hi, _, above =>
      if ranged then
        .ok ((intRangeList lo hi).map (fun i =>
          toggleVarBottom vn
            ⟨above.comment ++ "[" ++ ⟨intChars i⟩ ++ "]",
             .sel above.varRefp (i - lo) 1, .sel above.chgRefp (i - lo) 1⟩))
      else .ok [toggleVarBottom vn above]
  | .unpackArray lo hi sub, depth, above =>
      exceptMapCat (fun i =>
        toggleVarRecurse vn sub (depth + 1)
          ⟨above.comment ++ "[" ++ ⟨intChars i⟩ ++ "]",
           .arraySel above.varRefp (i - lo), .arraySel above.chgRefp (i - lo)⟩)
        (intRangeList lo hi)
  | .packArray lo hi sub, depth, above =>
      exceptMapCat (fun i =>
        toggleVarRecurse vn sub (depth + 1)
          ⟨above.comment ++ "[" ++ ⟨intChars i⟩ ++ "]",
           .sel above.varRefp ((i - lo) * sub.width) sub.width,
           .sel above.chgRefp ((i - lo) * sub.width) sub.width⟩)
        (intRangeList lo hi)
  | .structT packed ms, depth, above =>
      if packed then togglePackedMems vn ms depth above
      else toggleUnpackedMems vn ms depth above
  | .unionT ms, depth, above =>
      match ms with
      | .nil => .ok []
      | .cons (.mk name _ sub) _ =>
          toggleVarRecurse vn sub (depth + 1)
            ⟨above.comment ++ "." ++ name, above.varRefp, above.chgRefp⟩
  | .unsupported nm, _, _ =>
      .error ("Unexpected node data type in toggle coverage generation: " ++ nm)
def togglePackedMems (vn : String) : MemList → Int → ToggleEnt →
    Except String (List ToggleLeaf)
  | .nil, _, _ => .ok []
  | .cons (.mk name lsb sub) rest, depth, above => do
      let a ← toggleVarRecurse vn sub (depth + 1)
        ⟨above.comment ++ "." ++ name,
         .sel above.varRefp lsb sub.width, .sel above.chgRefp lsb sub.width⟩
      let b ← togglePackedMems vn rest depth above
      pure (a ++ b)
def toggleUnpackedMems (vn : String) : MemList → Int → ToggleEnt →
    Except String (List ToggleLeaf)
  | .nil, _, _ => .ok []
  | .cons (.mk name _ sub) rest, depth, above => do
      let a ← toggleVarRecurse vn sub (depth + 1)
        ⟨above.comment ++ "." ++ name,
         .structSel above.varRefp name, .structSel above.varRefp name⟩
      let b ← toggleUnpackedMems vn rest depth above
      pure (a ++ b)
end

/-- Model of the entry made by visit(AstVar): the initial ToggleEnt pairs
a read reference to the variable with a write reference to the freshly
created shadow variable. -/
def toggleVar (vn : String) (dt : DType) : Except String (List ToggleLeaf) :=
  toggleVarRecurse vn dt 0 ⟨"", .varRef .orig .read, .varRef .shadow .write⟩

/-! Which data types make the decomposition reach its fatal arm: the
recursion actually enters an unsupported node (an array with an empty
index range never recurses, and a union descends into its first member
only). -/
mutual
def hasUnsupReach : DType → Bool
  | .basic _ _ _ => false
  | .unpackArray lo hi sub => decide (lo ≤ hi) && hasUnsupReach sub
  | .packArray lo hi sub => decide (lo ≤ hi) && hasUnsupReach sub
  | .structT _ ms => memsUnsupReach ms
  | .unionT ms =>
      match ms with
      | .nil => false
      | .cons (.mk _ _ sub) _ => hasUnsupReach sub
  | .unsupported _ => true
def memsUnsupReach : MemList → Bool
  | .nil => false
  | .cons (.mk _ _ sub) rest => hasUnsupReach sub || memsUnsupReach rest
end

/-- Is an Except result an error? -/
def isErr {ε α : Type} : Except ε α → Bool
  | .error _ => true
  | .ok _ => false

/-! ## Correctness of the decimal rendering -/

/-- Value of a little-endian digit list. -/
def ofD (ds : List Nat) : Nat := ds.foldr (fun d acc => d + 10 * acc) 0

theorem natDigitsAux_lt10 : ∀ fuel n, ∀ d ∈ natDigitsAux fuel n, d < 10
  | 0, _ => by intro d hd; simp [natDigitsAux] at hd
  | fuel + 1, 0 => by intro d hd; simp [natDigitsAux] at hd
  | fuel + 1, n + 1 => by
      intro d hd
      simp only [natDigitsAux, List.mem_cons] at hd
      rcases hd with h | h
      · omega
      · exact natDigitsAux_lt10 fuel ((n + 1) / 10) d h

theorem ofD_natDigitsAux : ∀ fuel n, n ≤ fuel → ofD (natDigitsAux fuel n) = n
  | 0, n, h => by
      have : n = 0 := Nat.le_zero.mp h
      subst this; rfl
  | fuel + 1, 0, _ => rfl
  | fuel + 1, n + 1, h => by
      have hlt : (n + 1) / 10 < n + 1 := Nat.div_lt_self (Nat.succ_pos n) (by omega)
      have hle : (n + 1) / 10 ≤ fuel := by omega
      have ih := ofD_natDigitsAux fuel ((n + 1) / 10) hle
      simp only [natDigitsAux, ofD, List.foldr_cons]
      simp only [ofD] at ih
      rw [ih]
      omega

theorem ofD_natDigits (n : Nat) : ofD (natDigits n) = n :=
  ofD_natDigitsAux n n (Nat.le_refl n)

theorem natDigits_lt10 (n : Nat) : ∀ d ∈ natDigits n, d < 10 :=
  natDigitsAux_lt10 n n

theorem dChar_toNat {d : Nat} (h : d < 10) : (dChar d).toNat = 48 + d := by
  interval_cases d <;> decide

theorem dChar_ne_comma {d : Nat} (h : d < 10) : dChar d ≠ ',' := by
  interval_cases d <;> decide

theorem dChar_ne_dash {d : Nat} (h : d < 10) : dChar d ≠ '-' := by
  interval_cases d <;> decide

theorem readNat_go (ds : List Nat) (hd : ∀ d ∈ ds, d < 10) : ∀ acc : Nat,
    List.foldl (fun a c => 10 * a + (c.toNat - 48)) acc ((ds.map dChar).reverse)
      = acc * 10 ^ ds.length + ofD ds := by
  induction ds with
  | nil => intro acc; simp [ofD]
  | cons d ds ih =>
      intro acc
      have hd0 : d < 10 := hd d (List.mem_cons_self d ds)
      have hds : ∀ x ∈ ds, x < 10 := fun x hx => hd x (List.mem_cons_of_mem d hx)
      simp only [List.map_cons, List.reverse_cons, List.foldl_append, List.foldl_cons,
        List.foldl_nil]
      rw [ih hds acc]
      simp only [ofD, List.foldr_cons, List.length_cons, dChar_toNat hd0]
      simp only [ofD] at *
      ring_nf
      omega

theorem readNat_natChars (n : Nat) : readNat (natChars n) = n := by
  by_cases h : n = 0
  · subst h; decide
  · have : natChars n = ((natDigits n).map dChar).reverse := by simp [natChars, h]
    rw [readNat, this, readNat_go (natDigits n) (natDigits_lt10 n) 0]
    simp [ofD_natDigits]

theorem natDigits_ne_nil {n : Nat} (h : n ≠ 0) : natDigits n ≠ [] := by
  cases n with
  | zero => exact absurd rfl h
  | succ m => simp [natDigits, natDigitsAux]

theorem natChars_ne_nil (n : Nat) : natChars n ≠ [] := by
  by_cases h : n = 0
  · subst h; decide
  · simp only [natChars, if_neg h]
    simp [natDigits_ne_nil h]

theorem natChars_ne_comma (n : Nat) : ∀ c ∈ natChars n, c ≠ ',' := by
  intro c hc
  by_cases h : n = 0
  · subst h; simp [natChars] at hc; subst hc; decide
  · simp only [natChars, if_neg h, List.mem_reverse, List.mem_map] at hc
    obtain ⟨d, hd, rfl⟩ := hc
    exact dChar_ne_comma (natDigits_lt10 n d hd)

theorem natChars_ne_dash (n : Nat) : ∀ c ∈ natChars n, c ≠ '-' := by
  intro c hc
  by_cases h : n = 0
  · subst h; simp [natChars] at hc; subst hc; decide
  · simp only [natChars, if_neg h, List.mem_reverse, List.mem_map] at hc
    obtain ⟨d, hd, rfl⟩ := hc
    exact dChar_ne_dash (natDigits_lt10 n d hd)

theorem intChars_pos {i : Int} (h : 0 < i) : intChars i = natChars i.toNat := by
  simp [intChars, Int.not_lt.mpr (le_of_lt h)]

theorem readNat_intChars {i : Int} (h : 0 < i) : ((readNat (intChars i) : Nat) : Int) = i := by
  rw [intChars_pos h, readNat_natChars]
  exact Int.toNat_of_nonneg (le_of_lt h)

theorem intChars_pos_ne_comma {i : Int} (h : 0 < i) : ∀ c ∈ intChars i, c ≠ ',' := by
  rw [intChars_pos h]; exact natChars_ne_comma i.toNat

theorem intChars_pos_ne_dash {i : Int} (h : 0 < i) : ∀ c ∈ intChars i, c ≠ '-' := by
  rw [intChars_pos h]; exact natChars_ne_dash i.toNat

theorem intChars_pos_ne_nil {i : Int} (h : 0 < i) : intChars i ≠ [] := by
  rw [intChars_pos h]; exact natChars_ne_nil i.toNat

/-! ## Splitting as the inverse of joining -/

theorem splitOnC_ne_nil (c : Char) : ∀ cs, splitOnC c cs ≠ []
  | [] => by simp [splitOnC]
  | x :: xs => by
      have h := splitOnC_ne_nil c xs
      simp only [splitOnC]
      rcases hs : splitOnC c xs with _ | ⟨p, ps⟩
      · exact absurd hs h
      · by_cases hx : x == c <;> simp [hx]

theorem splitOnC_no_sep (c : Char) : ∀ cs, (∀ x ∈ cs, x ≠ c) → splitOnC c cs = [cs]
  | [], _ => rfl
  | x :: xs, h => by
      have ih := splitOnC_no_sep c xs (fun y hy => h y (List.mem_cons_of_mem x hy))
      have hx : (x == c) = false :=
        beq_eq_false_iff_ne.mpr (h x (List.mem_cons_self x xs))
      simp only [splitOnC, ih, hx]
      simp

theorem splitOnC_sep_append (c : Char) :
    ∀ p rest, (∀ x ∈ p, x ≠ c) → splitOnC c (p ++ c :: rest) = p :: splitOnC c rest
  | [], rest, _ => by
      simp only [List.nil_append, splitOnC]
      rcases hs : splitOnC c rest with _ | ⟨q, qs⟩
      · exact absurd hs (splitOnC_ne_nil c rest)
      · simp
  | x :: p, rest, h => by
      have ih := splitOnC_sep_append c p rest (fun y hy => h y (List.mem_cons_of_mem x hy))
      have hx : (x == c) = false :=
        beq_eq_false_iff_ne.mpr (h x (List.mem_cons_self x p))
      simp only [List.cons_append, splitOnC, hx, List.append_eq]
      rw [ih]
      simp

theorem splitOnC_joinComma :
    ∀ ps, ps ≠ [] → (∀ p ∈ ps, ∀ x ∈ p, x ≠ ',') → splitOnC ',' (joinComma ps) = ps
  | [], h, _ => absurd rfl h
  | [p], _, hp => by
      rw [joinComma]
      exact splitOnC_no_sep ',' p (hp p (List.mem_singleton.mpr rfl))
  | p :: q :: ps, _, hp => by
      have ih := splitOnC_joinComma (q :: ps) (by simp)
        (fun r hr => hp r (List.mem_cons_of_mem p hr))
      show splitOnC ',' (p ++ ',' :: joinComma (q :: ps)) = p :: q :: ps
      rw [splitOnC_sep_append ',' p (joinComma (q :: ps)) (hp p (List.mem_cons_self p _)), ih]

/-! ## Integer ranges -/

theorem intRangeList_self (a : Int) : intRangeList a a = [a] := by
  have h1 : (a - a + 1).toNat = 1 := by omega
  simp [intRangeList, h1, List.range_succ]

theorem intRangeList_empty {a b : Int} (h : b < a) : intRangeList a b = [] := by
  have : (b - a + 1).toNat = 0 := by omega
  simp [intRangeList, this]

theorem intRangeList_concat {a b : Int} (h : a ≤ b + 1) :
    intRangeList a (b + 1) = intRangeList a b ++ [b + 1] := by
  have h1 : (b + 1 - a + 1).toNat = (b - a + 1).toNat + 1 := by omega
  simp only [intRangeList, h1, List.range_succ, List.map_append, List.map_cons, List.map_nil]
  have h2 : a + ((b - a + 1).toNat : Int) = b + 1 := by omega
  rw [h2]

/-! ## The run decomposition -/

theorem toRangesFrom_ne_nil (first last : Int) : ∀ rest, toRangesFrom first last rest ≠ []
  | [] => by simp [toRangesFrom]
  | n :: rest => by
      simp only [toRangesFrom]
      by_cases h : n == last + 1
      · simp only [h, if_true]
        exact toRangesFrom_ne_nil first (last + 1) rest
      · simp [h]

theorem toRangesFrom_bounds :
    ∀ (rest : List Int) (first last : Int), 0 < first → first ≤ last →
      List.Chain (· < ·) last rest →
      ∀ r ∈ toRangesFrom first last rest, 0 < r.1 ∧ r.1 ≤ r.2
  | [], first, last, h1, h2, _, r, hr => by
      simp only [toRangesFrom, List.mem_singleton] at hr
      subst hr; exact ⟨h1, h2⟩
  | n :: rest, first, last, h1, h2, hch, r, hr => by
      rcases hch with _ | ⟨hlt, hch⟩
      simp only [toRangesFrom] at hr
      by_cases h : n == last + 1
      · rw [if_pos h] at hr
        have hn : n = last + 1 := by simpa using h
        exact toRangesFrom_bounds rest first (last + 1) h1 (by omega) (hn ▸ hch) r hr
      · rw [if_neg h, List.mem_cons] at hr
        rcases hr with rfl | hr
        · exact ⟨h1, h2⟩
        · exact toRangesFrom_bounds rest n n (by omega) le_rfl hch r hr

theorem toRangesFrom_flat :
    ∀ (rest : List Int) (first last : Int), first ≤ last →
      List.Chain (· < ·) last rest →
      (toRangesFrom first last rest).flatMap (fun r => intRangeList r.1 r.2)
        = intRangeList first last ++ rest
  | [], first, last, _, _ => by simp [toRangesFrom]
  | n :: rest, first, last, h2, hch => by
      rcases hch with _ | ⟨hlt, hch⟩
      simp only [toRangesFrom]
      by_cases h : n == last + 1
      · rw [if_pos h]
        have hn : n = last + 1 := by simpa using h
        rw [toRangesFrom_flat rest first (last + 1) (by omega) (hn ▸ hch)]
        rw [intRangeList_concat (by omega)]
        simp [hn]
      · rw [if_neg h]
        simp only [List.flatMap_cons]
        rw [toRangesFrom_flat rest n n le_rfl hch]
        simp [intRangeList_self, List.append_assoc]

/-! ## Characterizing the renderer on sorted positive sets -/

theorem linesFirstLast_piece {f l : Int} (h1 : 0 < f) (h2 : f ≤ l) :
    linesFirstLast f l = pieceChars (f, l) := by
  have hf : (f != 0) = true := by simp only [bne_iff_ne, ne_eq]; omega
  have hl : (l != 0) = true := by simp only [bne_iff_ne, ne_eq]; omega
  by_cases h : f = l
  · simp [linesFirstLast, pieceChars, h, hf, hl]
  · have hb : (f == l) = false := beq_eq_false_iff_ne.mpr h
    simp [linesFirstLast, pieceChars, hf, hl, hb]

theorem pieceChars_ne_nil {f l : Int} (h1 : 0 < f) : pieceChars (f, l) ≠ [] := by
  by_cases h : f = l
  · simpa [pieceChars, h] using intChars_pos_ne_nil (h ▸ h1)
  · have hb : (f == l) = false := beq_eq_false_iff_ne.mpr h
    simp only [pieceChars, hb, if_neg Bool.false_ne_true]
    intro hc
    exact intChars_pos_ne_nil h1 (List.append_eq_nil.mp hc).1

theorem pieceChars_ne_comma {f l : Int} (h1 : 0 < f) (h2 : f ≤ l) :
    ∀ c ∈ pieceChars (f, l), c ≠ ',' := by
  intro c hc
  by_cases h : f = l
  · rw [pieceChars] at hc
    simp only [show (f == l) = true from beq_iff_eq.mpr h, if_true] at hc
    exact intChars_pos_ne_comma h1 c hc
  · rw [pieceChars] at hc
    simp only [show (f == l) = false from beq_eq_false_iff_ne.mpr h] at hc
    simp only [Bool.false_eq_true, if_false, List.mem_append, List.mem_cons] at hc
    rcases hc with hc | hc | hc
    · exact intChars_pos_ne_comma h1 c hc
    · subst hc; decide
    · exact intChars_pos_ne_comma (by omega) c hc

theorem linesCovAux_ranges :
    ∀ (rest : List Int) (first last : Int) (out : List Char),
      0 < first → first ≤ last → List.Chain (· < ·) last rest →
      linesCovAux rest first last out =
        (if out.isEmpty then renderRanges (toRangesFrom first last rest)
         else out ++ ',' :: renderRanges (toRangesFrom first last rest))
  | [], first, last, out, h1, h2, _ => by
      have hf : (first != 0) = true := by simp only [bne_iff_ne, ne_eq]; omega
      simp only [linesCovAux, hf, if_true, toRangesFrom, renderRanges, List.map_cons,
        List.map_nil, joinComma, linesFirstLast_piece h1 h2]
  | n :: rest, first, last, out, h1, h2, hch => by
      rcases hch with _ | ⟨hlt, hch⟩
      have hf : (first == 0) = false := by
        apply beq_eq_false_iff_ne.mpr; omega
      simp only [linesCovAux, hf, Bool.false_eq_true, if_false]
      by_cases h : n = last + 1
      · have hb : (n == last + 1) = true := beq_iff_eq.mpr h
        rw [hb, if_pos rfl]
        rw [linesCovAux_ranges rest first (last + 1) out h1 (by omega) (h ▸ hch)]
        simp only [toRangesFrom, hb, if_true]
      · have hb : (n == last + 1) = false := beq_eq_false_iff_ne.mpr h
        rw [hb]
        simp only [Bool.false_eq_true, if_false]
        rw [linesCovAux_ranges rest n n _ (by omega) le_rfl hch]
        have hpc := pieceChars_ne_nil (l := last) h1
        have hrr : toRangesFrom first last (n :: rest) =
            (first, last) :: toRangesFrom n n rest := by
          simp only [toRangesFrom, hb, Bool.false_eq_true, if_false]
        rw [hrr]
        have hjoin : renderRanges ((first, last) :: toRangesFrom n n rest) =
            pieceChars (first, last) ++ ',' :: renderRanges (toRangesFrom n n rest) := by
          rw [renderRanges, List.map_cons]
          rcases htr : toRangesFrom n n rest with _ | ⟨r, rs⟩
          · exact absurd htr (toRangesFrom_ne_nil n n rest)
          · simp only [renderRanges, List.map_cons, joinComma]
        rw [hjoin]
        by_cases ho : out.isEmpty
        · simp only [ho, if_true, linesFirstLast_piece h1 h2]
          have : (pieceChars (first, last)).isEmpty = false := by
            rcases hpn : pieceChars (first, last) with _ | ⟨c, cs⟩
            · exact absurd hpn hpc
            · rfl
          simp only [this, Bool.false_eq_true, if_false]
        · simp only [ho, Bool.false_eq_true, if_false, linesFirstLast_piece h1 h2]
          have : (out ++ ',' :: pieceChars (first, last)).isEmpty = false := by
            rcases hout : out with _ | ⟨c, cs⟩
            · subst hout; simp at ho
            · rfl
          simp only [this, Bool.false_eq_true, if_false, List.append_assoc, List.cons_append]

theorem parsePiece_piece {a b : Int} (h1 : 0 < a) (h2 : a ≤ b) :
    parsePiece (pieceChars (a, b)) = intRangeList a b := by
  by_cases h : a = b
  · subst h
    have hpc : pieceChars (a, a) = intChars a := by simp [pieceChars]
    rw [hpc, parsePiece, splitOnC_no_sep '-' (intChars a) (intChars_pos_ne_dash h1)]
    rw [intRangeList_self]
    have := readNat_intChars h1
    simp only [this]
  · have hb : (a == b) = false := beq_eq_false_iff_ne.mpr h
    have hpc : pieceChars (a, b) = intChars a ++ '-' :: intChars b := by
      simp [pieceChars, hb]
    rw [hpc, parsePiece, splitOnC_sep_append '-' (intChars a) (intChars b)
      (intChars_pos_ne_dash h1)]
    rw [splitOnC_no_sep '-' (intChars b) (intChars_pos_ne_dash (by omega))]
    have ha := readNat_intChars h1
    have hbb := readNat_intChars (show (0 : Int) < b by omega)
    simp only [ha, hbb]

theorem flatMap_parse_pieces :
    ∀ rs : List (Int × Int), (∀ r ∈ rs, 0 < r.1 ∧ r.1 ≤ r.2) →
      (rs.map pieceChars).flatMap parsePiece = rs.flatMap (fun r => intRangeList r.1 r.2)
  | [], _ => rfl
  | r :: rs, h => by
      have hr := h r (List.mem_cons_self r rs)
      have ih := flatMap_parse_pieces rs (fun x hx => h x (List.mem_cons_of_mem r hx))
      simp only [List.map_cons, List.flatMap_cons, ih]
      rcases r with ⟨a, b⟩
      rw [parsePiece_piece hr.1 hr.2]

theorem renderRanges_ne_nil {rs : List (Int × Int)} (h0 : rs ≠ [])
    (h1 : ∀ r ∈ rs, 0 < r.1) : renderRanges rs ≠ [] := by
  rcases rs with _ | ⟨r, rs'⟩
  · exact absurd rfl h0
  rcases rs' with _ | ⟨q, rs''⟩
  · simpa [renderRanges, joinComma] using pieceChars_ne_nil (h1 r (List.mem_cons_self r []))
  · simp only [renderRanges, List.map_cons, joinComma]
    simp

theorem renderLines_cons {x : Int} {ls : List Int} (hx : 0 < x)
    (hch : List.Chain (· < ·) x ls) :
    renderLines (x :: ls) = ⟨renderRanges (toRangesFrom x x ls)⟩ := by
  have h0 : ((x : Int) == 0) = false := beq_eq_false_iff_ne.mpr (by omega)
  show (⟨linesCovAux (x :: ls) 0 0 []⟩ : String) = _
  have hstep : linesCovAux (x :: ls) 0 0 [] = linesCovAux ls x x [] := by
    simp [linesCovAux]
  rw [hstep, linesCovAux_ranges ls x x [] hx le_rfl hch]
  rfl

theorem renderLines_singleton {n : Int} (h : 0 < n) : renderLines [n] = ⟨intChars n⟩ := by
  rw [renderLines_cons h List.Chain.nil]
  simp [renderRanges, toRangesFrom, joinComma, pieceChars]

/-- C2 counterexample: the set containing line number 0 renders as the
empty string (0 is the internal no-open-run sentinel of linesCov), so
parsing the rendered string back does not reconstruct the set. -/
theorem linescov_roundtrip_fails_at_zero :
    parseLinesCov (renderLines [0]) ≠ [0] ∧ renderLines [0] = "" := by
  constructor
  · decide
  · rfl

/-- C2 (amended): for a set of distinct positive line numbers (presented
as its sorted list, the iteration order of the std::set), the rendered
string parses back to exactly the original set; the empty set renders as
the empty string; the rendering depends only on the set, not on the
order in which lines were inserted; and a singleton set renders as the
bare number with no hyphen and no comma. -/
theorem linescov_roundtrip_positive (l : List Int) (hs : List.Pairwise (· < ·) l)
    (hp : ∀ x ∈ l, 0 < x) :
    parseLinesCov (renderLines l) = l ∧
    renderLines [] = "" ∧
    (∀ l2 : List Int, List.Pairwise (· < ·) l2 → l.Perm l2 → renderLines l2 = renderLines l) ∧
    (∀ n : Int, l = [n] →
      (renderLines l).data = intChars n ∧ '-' ∉ (renderLines l).data ∧
        ',' ∉ (renderLines l).data) := by
  refine ⟨?_, rfl, ?_, ?_⟩
  · rcases l with _ | ⟨x, ls⟩
    · rfl
    · have hx : 0 < x := hp x (List.mem_cons_self x ls)
      have hch : List.Chain (· < ·) x ls := List.chain_iff_pairwise.mpr hs
      rw [renderLines_cons hx hch]
      have hbounds := toRangesFrom_bounds ls x x hx le_rfl hch
      have hne : toRangesFrom x x ls ≠ [] := toRangesFrom_ne_nil x x ls
      have hrne : renderRanges (toRangesFrom x x ls) ≠ [] :=
        renderRanges_ne_nil hne (fun r hr => (hbounds r hr).1)
      have hdata : (⟨renderRanges (toRangesFrom x x ls)⟩ : String).data
          = renderRanges (toRangesFrom x x ls) := rfl
      rw [parseLinesCov, hdata]
      have hem : (renderRanges (toRangesFrom x x ls)).isEmpty = false := by
        rcases hrr : renderRanges (toRangesFrom x x ls) with _ | ⟨c, cs⟩
        · exact absurd hrr hrne
        · rfl
      rw [hem]
      simp only [Bool.false_eq_true, if_false]
      rw [renderRanges, splitOnC_joinComma ((toRangesFrom x x ls).map pieceChars)]
      · rw [flatMap_parse_pieces _ hbounds, toRangesFrom_flat ls x x le_rfl hch,
          intRangeList_self]
        rfl
      · simp [hne]
      · intro p hpmem c hc
        rw [List.mem_map] at hpmem
        obtain ⟨r, hr, rfl⟩ := hpmem
        exact pieceChars_ne_comma (hbounds r hr).1 (hbounds r hr).2 c hc
  · intro l2 hs2 hperm
    haveI : IsAntisymm Int (· < ·) := ⟨fun a b h1 h2 => absurd (h1.trans h2) (lt_irrefl a)⟩
    have : l = l2 := List.eq_of_perm_of_sorted hperm hs hs2
    rw [← this]
  · intro n hn
    subst hn
    have h : 0 < n := hp n (List.mem_cons_self n [])
    rw [renderLines_singleton h]
    refine ⟨rfl, ?_, ?_⟩
    · intro hc
      exact intChars_pos_ne_dash h '-' hc rfl
    · intro hc
      exact intChars_pos_ne_comma h ',' hc rfl

/-- C2 witness: the specification example set renders and parses back. -/
theorem linescov_roundtrip_positive_witness :
    parseLinesCov (renderLines [3, 4, 5, 9, 10, 12]) = [3, 4, 5, 9, 10, 12] ∧
    renderLines [3, 4, 5, 9, 10, 12] = "3-5,9-10,12" :=
  ⟨(linescov_roundtrip_positive [3, 4, 5, 9, 10, 12] (by decide) (by decide)).1, by decide⟩

/-! ## Unfolded views of the visitor arms

Each arm of coverStmt is restated as a plain definition or equation,
proved definitionally equal, so theorems can unfold one construct at a
time without touching the recursion.
-/

/-- The visit(AstIf) body as a standalone function of the recursion results. -/
def ifVisit (g : Opts) (marked : Bool) (vs : VState) (fl : FLine) (thens elses : StmtList) :
    Option Stmt × VState :=
  if vs.state.m_on then
    let lastState := vs.state
    let elsifB := !thens.isNil && isSingleIf elses
    let firstElsif := !marked && elsifB
    let contElsif := marked && elsifB
    let finalElsif := marked && !elsifB && !elses.isNil
    let rT := coverStmts g false (createHandle fl vs) thens
    let vsT := lineTrack g fl rT.2
    let ifState := vsT.state
    let rE := coverStmts g elsifB (createHandle fl { vsT with state := lastState }) elses
    let elseState := rE.2.state
    let vsD := { rE.2 with state := lastState }
    if !(firstElsif || contElsif || finalElsif) && lineCoverageOn g ifState fl
        && lineCoverageOn g elseState fl then
      let e1 := emitCover g vsD fl "v_branch" "if" 0 ifState
      let e2 := emitCover g e1.2 fl "v_branch" "else" 1 elseState
      (some (.ifS fl (rT.1 ++ e1.1) (rE.1 ++ e2.1)), { e2.2 with state := lastState })
    else if firstElsif || contElsif then
      if lineCoverageOn g ifState fl then
        let e1 := emitCover g vsD fl "v_line" "elsif" 0 ifState
        (some (.ifS fl (rT.1 ++ e1.1) rE.1), { e1.2 with state := lastState })
      else (some (.ifS fl rT.1 rE.1), vsD)
    else
      let h1 :=
        if lineCoverageOn g ifState fl then
          let e1 := emitCover g vsD fl "v_line" "if" 0 ifState
          (rT.1 ++ e1.1, e1.2)
        else (rT.1, vsD)
      let h2 :=
        if lineCoverageOn g elseState fl then
          let e2 := emitCover g h1.2 fl "v_line" "else" 1 elseState
          (rE.1 ++ e2.1, e2.2)
        else (rE.1, h1.2)
      (some (.ifS fl h1.1 h2.1), { h2.2 with state := lastState })
  else (some (.ifS fl thens elses), vs)

theorem coverStmt_ifS (g : Opts) (marked : Bool) (vs : VState) (fl : FLine)
    (thens elses : StmtList) :
    coverStmt g marked vs (.ifS fl thens elses) = ifVisit g marked vs fl thens elses := rfl

/-- The visit(AstCaseItem) body as a standalone function. -/
def caseVisit (g : Opts) (vs : VState) (fl : FLine) (stmts : StmtList) :
    Option Stmt × VState :=
  if lineCoverageOn g vs.state fl then
    let lastState := vs.state
    let r := coverStmts g false (createHandle fl vs) stmts
    if lineCoverageOn g r.2.state fl then
      let vsT := lineTrack g fl r.2
      let e := emitCover g vsT fl "v_line" "case" 0 vsT.state
      (some (.caseItem fl (r.1 ++ e.1)), { e.2 with state := lastState })
    else (some (.caseItem fl r.1), { r.2 with state := lastState })
  else (some (.caseItem fl stmts), vs)

theorem coverStmt_caseItem (g : Opts) (marked : Bool) (vs : VState) (fl : FLine)
    (stmts : StmtList) :
    coverStmt g marked vs (.caseItem fl stmts) = caseVisit g vs fl stmts := rfl

theorem coverStmt_stop (g : Opts) (marked : Bool) (vs : VState) (fl : FLine) :
    coverStmt g marked vs (.stop fl) =
      (some (.stop fl), { vs with state := { vs.state with m_on := false } }) := rfl

theorem coverStmt_pragma (g : Opts) (marked : Bool) (vs : VState) (fl : FLine) (isOff : Bool) :
    coverStmt g marked vs (.pragma fl isOff) =
      (if isOff then (none, { vs with state := { vs.state with m_on := false } })
       else (some (.pragma fl isOff), lineTrack g fl vs)) := rfl

theorem coverStmts_nil (g : Opts) (mh : Bool) (vs : VState) :
    coverStmts g mh vs .nil = (.nil, vs) := rfl

theorem coverStmts_cons (g : Opts) (mh : Bool) (vs : VState) (s : Stmt) (rest : StmtList) :
    coverStmts g mh vs (.cons s rest) =
      ((match (coverStmt g mh vs s).1 with
        | none => (coverStmts g false (coverStmt g mh vs s).2 rest).1
        | some s' => .cons s' (coverStmts g false (coverStmt g mh vs s).2 rest).1),
       (coverStmts g false (coverStmt g mh vs s).2 rest).2) := rfl

/-! ## Named intermediate results of the if visit -/

/-- The then-branch recursion of visit(AstIf): iterate the then list from
a fresh handle over the saved state. -/
def ifThenRes (g : Opts) (vs : VState) (fl : FLine) (thens : StmtList) : StmtList × VState :=
  coverStmts g false (createHandle fl vs) thens

/-- The else-branch recursion of visit(AstIf): restore the saved state,
take a second fresh handle, and iterate the else list (whose head is
marked exactly when the else-if shape was detected). -/
def ifElseRes (g : Opts) (vs : VState) (fl : FLine) (thens elses : StmtList)
    (elsifB : Bool) : StmtList × VState :=
  coverStmts g elsifB
    (createHandle fl { lineTrack g fl (ifThenRes g vs fl thens).2 with state := vs.state }) elses

/-- The body recursion of visit(AstCaseItem). -/
def caseRes (g : Opts) (vs : VState) (fl : FLine) (stmts : StmtList) : StmtList × VState :=
  coverStmts g false (createHandle fl vs) stmts

/-! ## Concrete fixtures used by witnesses and counterexamples -/

/-- A file location with coverage enabled. -/
def flA : FLine := ⟨1, "t", 10, 10, true⟩

/-- A second location in the same file. -/
def flB : FLine := ⟨1, "t", 20, 20, true⟩

/-- A configuration with line and user coverage on and trace coverage off. -/
def optsA : Opts := ⟨true, true, false⟩

/-- A visitor state as it stands inside a non-top module with coverage on. -/
def vstateA : VState :=
  ⟨⟨true, false, 1, flA⟩, 1, fun _ => [], [], [], [], "", "top", false⟩

@[simp] theorem lineTrack_state (g : Opts) (fl : FLine) (vs : VState) :
    (lineTrack g fl vs).state = vs.state := rfl

/-- C3: for a plain if/else conditional (not an else-if chain link in
either direction: unmarked and without the trailing single-conditional
else shape), when both branch scopes still have line coverage active
after the two independent branch visits, exactly the two branch-coverage
increments are inserted: the one tagged if with offset 0 appended to the
then list and the one tagged else with offset 1 appended to the else
list, and the scope state is restored. -/
theorem if_branch_cover (g : Opts) (vs : VState) (fl : FLine) (thens elses : StmtList)
    (hOn : vs.state.m_on = true)
    (hPlain : (!thens.isNil && isSingleIf elses) = false)
    (hIf : lineCoverageOn g (ifThenRes g vs fl thens).2.state fl = true)
    (hElse : lineCoverageOn g (ifElseRes g vs fl thens elses false).2.state fl = true) :
    coverStmt g false vs (.ifS fl thens elses) =
      (some (.ifS fl
        ((ifThenRes g vs fl thens).1 ++
          (emitCover g { (ifElseRes g vs fl thens elses false).2 with state := vs.state }
            fl "v_branch" "if" 0 (ifThenRes g vs fl thens).2.state).1)
        ((ifElseRes g vs fl thens elses false).1 ++
          (emitCover g
            (emitCover g { (ifElseRes g vs fl thens elses false).2 with state := vs.state }
              fl "v_branch" "if" 0 (ifThenRes g vs fl thens).2.state).2
            fl "v_branch" "else" 1 (ifElseRes g vs fl thens elses false).2.state).1)),
       { (emitCover g
            (emitCover g { (ifElseRes g vs fl thens elses false).2 with state := vs.state }
              fl "v_branch" "if" 0 (ifThenRes g vs fl thens).2.state).2
            fl "v_branch" "else" 1 (ifElseRes g vs fl thens elses false).2.state).2
          with state := vs.state }) := by
  simp only [ifThenRes, ifElseRes] at hIf hElse ⊢
  rw [coverStmt_ifS]
  simp only [ifVisit, hOn, hPlain, if_true, Bool.not_false, Bool.and_false, Bool.false_and,
    Bool.or_false, Bool.false_or, Bool.not_true, Bool.true_and]
  rw [lineTrack_state, hIf, hElse]
  simp only [Bool.and_self, Bool.true_and, if_true]

/-- C3 witness: a concrete plain if/else with empty branches in an
enabled scope receives exactly the two branch increments. -/
theorem if_branch_cover_witness :
    (coverStmt optsA false vstateA (.ifS flA .nil .nil)).1 =
      some (.ifS flA
        (.cons (.coverInc flA ⟨"v_branch/top", "if", "10", 0, ""⟩) .nil)
        (.cons (.coverInc flA ⟨"v_branch/top", "else", "", 1, ""⟩) .nil)) := by
  rw [if_branch_cover optsA vstateA flA .nil .nil rfl rfl rfl rfl]
  rfl

/-- C4: for a conditional with the else-if link shape (then branch
present, else branch exactly one trailing conditional), whether it is the
first link (unmarked) or a continuation (marked), if the then scope still
has line coverage active then exactly one line increment tagged elsif
(page v_line, offset 0) is appended to the then list, nothing is appended
to the else side at this link, and the state is restored; in particular
no branch-style if/else increments are emitted for this link. -/
theorem if_elsif_cover (g : Opts) (marked : Bool) (vs : VState) (fl : FLine)
    (thens elses : StmtList)
    (hOn : vs.state.m_on = true)
    (hShape : (!thens.isNil && isSingleIf elses) = true)
    (hIf : lineCoverageOn g (ifThenRes g vs fl thens).2.state fl = true) :
    coverStmt g marked vs (.ifS fl thens elses) =
      (some (.ifS fl
        ((ifThenRes g vs fl thens).1 ++
          (emitCover g { (ifElseRes g vs fl thens elses true).2 with state := vs.state }
            fl "v_line" "elsif" 0 (ifThenRes g vs fl thens).2.state).1)
        (ifElseRes g vs fl thens elses true).1),
       { (emitCover g { (ifElseRes g vs fl thens elses true).2 with state := vs.state }
            fl "v_line" "elsif" 0 (ifThenRes g vs fl thens).2.state).2
          with state := vs.state }) := by
  simp only [ifThenRes, ifElseRes] at hIf ⊢
  rw [coverStmt_ifS]
  cases marked <;>
  · simp only [ifVisit, hOn, hShape, if_true, Bool.not_false, Bool.not_true, Bool.and_true,
      Bool.true_and, Bool.false_and, Bool.and_false, Bool.or_false, Bool.false_or,
      Bool.true_or, Bool.or_true, Bool.not_or, Bool.and_self]
    rw [lineTrack_state, hIf]
    simp only [if_true, Bool.false_eq_true, if_false]

/-- C4 witness: a concrete first else-if link receives exactly the elsif
line increment on its then branch and nothing on its else side. -/
theorem if_elsif_cover_witness :
    (coverStmt optsA false vstateA
        (.ifS flA (.cons (.other flB .nil) .nil) (.cons (.ifS flB .nil .nil) .nil))).1 =
      some (.ifS flA
        (.cons (.other flB .nil)
          (.cons (.coverInc flA ⟨"v_line/top", "elsif", "10,20", 0, ""⟩) .nil))
        (.cons (.ifS flB
          (.cons (.coverInc flB ⟨"v_branch/top", "if", "20", 0, ""⟩) .nil)
          (.cons (.coverInc flB ⟨"v_branch/top", "else", "", 1, ""⟩) .nil)) .nil)) := by
  rw [if_elsif_cover optsA false vstateA flA (.cons (.other flB .nil) .nil)
    (.cons (.ifS flB .nil .nil) .nil) rfl rfl rfl]
  rfl

/-- C10: a conditional marked as a chain continuation whose else branch is
absent is not any of the three else-if cases, so when its then scope and
the trivially empty else scope both have line coverage active it receives
full branch coverage: the if increment appended to its then branch and
the else increment forming a newly created else branch that holds nothing
but the emission result. -/
theorem if_marked_no_else_branch_cover (g : Opts) (vs : VState) (fl : FLine)
    (thens : StmtList)
    (hOn : vs.state.m_on = true)
    (hIf : lineCoverageOn g (ifThenRes g vs fl thens).2.state fl = true)
    (hIm : vs.state.m_inModOff = false)
    (hCov : fl.coverageOn = true)
    (hLine : g.coverageLine = true) :
    coverStmt g true vs (.ifS fl thens .nil) =
      (some (.ifS fl
        ((ifThenRes g vs fl thens).1 ++
          (emitCover g { (ifElseRes g vs fl thens .nil false).2 with state := vs.state }
            fl "v_branch" "if" 0 (ifThenRes g vs fl thens).2.state).1)
        ((ifElseRes g vs fl thens .nil false).1 ++
          (emitCover g
            (emitCover g { (ifElseRes g vs fl thens .nil false).2 with state := vs.state }
              fl "v_branch" "if" 0 (ifThenRes g vs fl thens).2.state).2
            fl "v_branch" "else" 1 (ifElseRes g vs fl thens .nil false).2.state).1)),
       { (emitCover g
            (emitCover g { (ifElseRes g vs fl thens .nil false).2 with state := vs.state }
              fl "v_branch" "if" 0 (ifThenRes g vs fl thens).2.state).2
            fl "v_branch" "else" 1 (ifElseRes g vs fl thens .nil false).2.state).2
          with state := vs.state }) ∧
    (ifElseRes g vs fl thens .nil false).1 = .nil := by
  have hElse : lineCoverageOn g (ifElseRes g vs fl thens .nil false).2.state fl = true := by
    simp only [ifElseRes, coverStmts_nil, lineCoverageOn, lcOn, createHandle, hIm, hCov,
      hLine]
    rfl
  refine ⟨?_, rfl⟩
  simp only [ifThenRes, ifElseRes] at hIf hElse ⊢
  rw [coverStmt_ifS]
  simp only [ifVisit, hOn, if_true, isSingleIf, Bool.and_false, Bool.not_true,
    Bool.false_and, Bool.and_true, Bool.true_and, Bool.or_false, Bool.false_or,
    StmtList.isNil, Bool.not_false]
  rw [lineTrack_state, hIf, hElse]
  simp only [Bool.and_self, Bool.true_and, if_true]

/-- C10 witness: a concrete marked trailing else-if with no else branch
receives the if increment and a synthesized else branch holding only the
emitted else increment. -/
theorem if_marked_no_else_branch_cover_witness :
    (coverStmt optsA true vstateA (.ifS flA .nil .nil)).1 =
      some (.ifS flA
        (.cons (.coverInc flA ⟨"v_branch/top", "if", "10", 0, ""⟩) .nil)
        (.cons (.coverInc flA ⟨"v_branch/top", "else", "", 1, ""⟩) .nil)) := by
  rw [(if_marked_no_else_branch_cover optsA vstateA flA .nil rfl rfl rfl rfl rfl).1]
  rfl

/-- C5: visiting a conditional restores the complete scope state (enabled
flag, module-suppressed flag, handle, establishing node) to its value
from before the visit, whatever the branches contain; moreover the else
branch is always visited from a freshly enabled state derived from the
saved parent state, so a stop in the then branch can affect neither the
else branch nor any statement after the conditional. -/
theorem if_restores_state (g : Opts) (marked : Bool) (vs : VState) (fl : FLine)
    (thens elses : StmtList) :
    (coverStmt g marked vs (.ifS fl thens elses)).2.state = vs.state ∧
    (createHandle fl
      { lineTrack g fl (ifThenRes g vs fl thens).2 with state := vs.state }).state.m_on
      = true ∧
    (createHandle fl
      { lineTrack g fl (ifThenRes g vs fl thens).2 with state := vs.state }).state.m_inModOff
      = vs.state.m_inModOff := by
  refine ⟨?_, rfl, rfl⟩
  rw [coverStmt_ifS]
  simp only [ifVisit]
  split
  · split
    · rfl
    · split
      · split
        · rfl
        · rfl
      · rfl
  · rfl

theorem coverStmt_coverB (g : Opts) (marked : Bool) (vs : VState) (fl : FLine)
    (stmts covincs : StmtList) :
    coverStmt g marked vs (.coverB fl stmts covincs) =
      (let lastState := vs.state
       let r1 := coverStmts g false (createHandle fl vs) stmts
       let r2 := coverStmts g false r1.2 covincs
       if covincs.isNil && g.coverageUser then
         let vsT := lineTrack g fl r2.2
         let e := newCoverInc g vsT fl vsT.beginHier "v_user" "cover" (linesCov vsT vsT.state)
                    0 (vsT.beginHier ++ "_vlCoverageUserTrace")
         (some (.coverB fl r1.1 (r2.1 ++ e.1)), { e.2 with state := lastState })
       else (some (.coverB fl r1.1 r2.1), { r2.2 with state := lastState })) := rfl

theorem coverStmt_beginB (g : Opts) (marked : Bool) (vs : VState) (fl : FLine)
    (name : String) (stmts : StmtList) :
    coverStmt g marked vs (.beginB fl name stmts) =
      (let savedHier := vs.beginHier
       let vs1 :=
         if name != "" then
           { vs with beginHier := vs.beginHier ++ (if vs.beginHier != "" then "." else "")
                                  ++ name }
         else vs
       let r := coverStmts g false vs1 stmts
       let vsT := lineTrack g fl r.2
       (some (.beginB fl name r.1), { vsT with beginHier := savedHier })) := rfl

theorem coverStmt_ftask (g : Opts) (marked : Bool) (vs : VState) (fl : FLine)
    (dpi : Bool) (stmts : StmtList) :
    coverStmt g marked vs (.ftask fl dpi stmts) =
      (if dpi then (some (.ftask fl dpi stmts), vs)
       else
         let lastState := vs.state
         let r := coverStmts g false (createHandle fl vs) stmts
         if lineCoverageOn g r.2.state fl then
           let vsT := lineTrack g fl r.2
           let e := emitCover g vsT fl "v_line" "block" 0 vsT.state
           (some (.ftask fl dpi (r.1 ++ e.1)), { e.2 with state := lastState })
         else (some (.ftask fl dpi r.1), { r.2 with state := lastState })) := rfl

theorem coverStmt_whileS (g : Opts) (marked : Bool) (vs : VState) (fl : FLine)
    (stmts : StmtList) :
    coverStmt g marked vs (.whileS fl stmts) =
      (let lastState := vs.state
       let r := coverStmts g false (createHandle fl vs) stmts
       if lineCoverageOn g r.2.state fl then
         let vsT := lineTrack g fl r.2
         let e := emitCover g vsT fl "v_line" "block" 0 vsT.state
         (some (.whileS fl (r.1 ++ e.1)), { e.2 with state := lastState })
       else (some (.whileS fl r.1), { r.2 with state := lastState })) := rfl

theorem coverStmt_proced (g : Opts) (marked : Bool) (vs : VState) (fl : FLine)
    (stmts : StmtList) :
    coverStmt g marked vs (.proced fl stmts) =
      (let lastState := vs.state
       let r := coverStmts g false (createHandle fl vs) stmts
       if lineCoverageOn g r.2.state fl then
         let vsT := lineTrack g fl r.2
         let e := emitCover g vsT fl "v_line" "block" 0 vsT.state
         (some (.proced fl (r.1 ++ e.1)), { e.2 with state := lastState })
       else (some (.proced fl r.1), { r.2 with state := lastState })) := rfl

theorem coverStmt_coverInc (g : Opts) (marked : Bool) (vs : VState) (fl : FLine)
    (d : CoverDecl) :
    coverStmt g marked vs (.coverInc fl d) = (some (.coverInc fl d), lineTrack g fl vs) := rfl

theorem coverStmt_incAssign (g : Opts) (marked : Bool) (vs : VState) (fl : FLine)
    (v : String) :
    coverStmt g marked vs (.incAssign fl v) = (some (.incAssign fl v), lineTrack g fl vs) := rfl

theorem coverStmt_other (g : Opts) (marked : Bool) (vs : VState) (fl : FLine)
    (stmts : StmtList) :
    coverStmt g marked vs (.other fl stmts) =
      (some (.other fl (coverStmts g false vs stmts).1),
       lineTrack g fl (coverStmts g false vs stmts).2) := rfl

/-! ## Scope-state helper lemmas -/

theorem coverStmt_ifS_state (g : Opts) (marked : Bool) (vs : VState) (fl : FLine)
    (thens elses : StmtList) :
    (coverStmt g marked vs (.ifS fl thens elses)).2.state = vs.state := by
  rw [coverStmt_ifS]
  simp only [ifVisit]
  split
  · split
    · rfl
    · split
      · split
        · rfl
        · rfl
      · rfl
  · rfl

theorem coverStmt_caseItem_state (g : Opts) (marked : Bool) (vs : VState) (fl : FLine)
    (stmts : StmtList) :
    (coverStmt g marked vs (.caseItem fl stmts)).2.state = vs.state := by
  rw [coverStmt_caseItem]
  simp only [caseVisit]
  split
  · split
    · rfl
    · rfl
  · rfl

theorem coverStmt_coverB_state (g : Opts) (marked : Bool) (vs : VState) (fl : FLine)
    (stmts covincs : StmtList) :
    (coverStmt g marked vs (.coverB fl stmts covincs)).2.state = vs.state := by
  rw [coverStmt_coverB]
  dsimp only
  split <;> rfl

theorem coverStmt_ftask_state (g : Opts) (marked : Bool) (vs : VState) (fl : FLine)
    (dpi : Bool) (stmts : StmtList) :
    (coverStmt g marked vs (.ftask fl dpi stmts)).2.state = vs.state := by
  rw [coverStmt_ftask]
  dsimp only
  split
  · rfl
  · split <;> rfl

theorem coverStmt_whileS_state (g : Opts) (marked : Bool) (vs : VState) (fl : FLine)
    (stmts : StmtList) :
    (coverStmt g marked vs (.whileS fl stmts)).2.state = vs.state := by
  rw [coverStmt_whileS]
  dsimp only
  split <;> rfl

theorem coverStmt_proced_state (g : Opts) (marked : Bool) (vs : VState) (fl : FLine)
    (stmts : StmtList) :
    (coverStmt g marked vs (.proced fl stmts)).2.state = vs.state := by
  rw [coverStmt_proced]
  dsimp only
  split <;> rfl

/-! ## Sequencing and disabled-state preservation -/

theorem coverStmts_append (g : Opts) :
    ∀ (l1 : StmtList) (vs : VState) (l2 : StmtList),
      coverStmts g false vs (l1 ++ l2) =
        ((coverStmts g false vs l1).1 ++
           (coverStmts g false (coverStmts g false vs l1).2 l2).1,
         (coverStmts g false (coverStmts g false vs l1).2 l2).2)
  | .nil, vs, l2 => by
      rw [StmtList.nil_append, coverStmts_nil]
      rw [StmtList.nil_append]
  | .cons s r, vs, l2 => by
      have ih := coverStmts_append g r (coverStmt g false vs s).2 l2
      rw [StmtList.cons_append, coverStmts_cons, coverStmts_cons, ih]
      rcases (coverStmt g false vs s).1 with _ | s'
      · rfl
      · rw [StmtList.cons_append]

/-! A disabled scope stays disabled: no visit turns the enabled flag back
on in the caller's scope. -/
mutual
theorem coverStmt_off_preserved (g : Opts) (m : Bool) (vs : VState) :
    ∀ s : Stmt, vs.state.m_on = false → (coverStmt g m vs s).2.state.m_on = false
  | .ifS fl thens elses, h => by rw [coverStmt_ifS_state]; exact h
  | .caseItem fl stmts, h => by rw [coverStmt_caseItem_state]; exact h
  | .stop fl, h => by rw [coverStmt_stop]
  | .pragma fl isOff, h => by
      rw [coverStmt_pragma]
      split
      · rfl
      · exact h
  | .coverB fl stmts covincs, h => by rw [coverStmt_coverB_state]; exact h
  | .beginB fl name stmts, h => by
      rw [coverStmt_beginB]
      dsimp only
      split
      · exact coverStmts_off_preserved g false _ stmts h
      · exact coverStmts_off_preserved g false _ stmts h
  | .ftask fl dpi stmts, h => by rw [coverStmt_ftask_state]; exact h
  | .whileS fl stmts, h => by rw [coverStmt_whileS_state]; exact h
  | .proced fl stmts, h => by rw [coverStmt_proced_state]; exact h
  | .coverInc fl d, h => by rw [coverStmt_coverInc]; exact h
  | .incAssign fl v, h => by rw [coverStmt_incAssign]; exact h
  | .other fl stmts, h => by
      rw [coverStmt_other]
      exact coverStmts_off_preserved g false vs stmts h
theorem coverStmts_off_preserved (g : Opts) (m : Bool) (vs : VState) :
    ∀ l : StmtList, vs.state.m_on = false → (coverStmts g m vs l).2.state.m_on = false
  | .nil, h => h
  | .cons s rest, h => by
      rw [coverStmts_cons]
      exact coverStmts_off_preserved g false (coverStmt g m vs s).2 rest
        (coverStmt_off_preserved g m vs s h)
end

/-- C6: a case arm opens a new scope only when the parent scope has line
coverage active for the arm; after the body runs, exactly one line
increment tagged case is appended if and only if line coverage is still
active; and a scope-off pragma anywhere at the top level of the arm body
forces coverage inactive afterwards, so such an arm gets no increment.
In every case the parent scope state is restored, leaving sibling arms
unaffected. -/
theorem caseitem_cover (g : Opts) (marked : Bool) (vs : VState) (fl : FLine)
    (stmts : StmtList) :
    (lineCoverageOn g vs.state fl = false →
      coverStmt g marked vs (.caseItem fl stmts) = (some (.caseItem fl stmts), vs)) ∧
    (lineCoverageOn g vs.state fl = true →
      lineCoverageOn g (caseRes g vs fl stmts).2.state fl = true →
      coverStmt g marked vs (.caseItem fl stmts) =
        (some (.caseItem fl ((caseRes g vs fl stmts).1 ++
          (emitCover g (lineTrack g fl (caseRes g vs fl stmts).2) fl "v_line" "case" 0
            (caseRes g vs fl stmts).2.state).1)),
         { (emitCover g (lineTrack g fl (caseRes g vs fl stmts).2) fl "v_line" "case" 0
             (caseRes g vs fl stmts).2.state).2 with state := vs.state })) ∧
    (lineCoverageOn g vs.state fl = true →
      lineCoverageOn g (caseRes g vs fl stmts).2.state fl = false →
      coverStmt g marked vs (.caseItem fl stmts) =
        (some (.caseItem fl (caseRes g vs fl stmts).1),
         { (caseRes g vs fl stmts).2 with state := vs.state })) ∧
    (∀ pre post (flp : FLine), stmts = pre ++ .cons (.pragma flp true) post →
      lineCoverageOn g (caseRes g vs fl stmts).2.state fl = false) := by
  refine ⟨?_, ?_, ?_, ?_⟩
  · intro h
    rw [coverStmt_caseItem]
    simp only [caseVisit, h, Bool.false_eq_true, if_false]
  · intro h1 h2
    rw [coverStmt_caseItem]
    simp only [caseRes] at h2 ⊢
    simp only [caseVisit, h1, if_true]
    rw [lineTrack_state, h2]
    simp only [if_true]
  · intro h1 h2
    rw [coverStmt_caseItem]
    simp only [caseRes] at h2 ⊢
    simp only [caseVisit, h1, if_true]
    rw [lineTrack_state, h2]
    simp only [Bool.false_eq_true, if_false]
  · intro pre post flp heq
    subst heq
    have happ := coverStmts_append g pre (createHandle fl vs)
      (.cons (.pragma flp true) post)
    simp only [caseRes, happ]
    rw [coverStmts_cons]
    have hm : (coverStmt g false (coverStmts g false (createHandle fl vs) pre).2
        (.pragma flp true)).2.state.m_on = false := by
      rw [coverStmt_pragma]
      simp
    have hoff := coverStmts_off_preserved g false _ post hm
    simp only [lineCoverageOn, lcOn, hoff, Bool.false_and]

/-- C6 witness: a concrete case arm in an active scope with an empty body
receives exactly one case increment; with a scope-off pragma in the body
it receives none, and the state is restored either way. -/
theorem caseitem_cover_witness :
    (coverStmt optsA false vstateA (.caseItem flA .nil)).1 =
      some (.caseItem flA (.cons (.coverInc flA ⟨"v_line/top", "case", "10", 0, ""⟩) .nil))
    ∧ (coverStmt optsA false vstateA
        (.caseItem flA (.cons (.pragma flB true) .nil))).1 =
      some (.caseItem flA .nil)
    ∧ (coverStmt optsA false vstateA
        (.caseItem flA (.cons (.pragma flB true) .nil))).2.state = vstateA.state := by
  refine ⟨?_, ?_, ?_⟩
  · rw [(caseitem_cover optsA false vstateA flA .nil).2.1 rfl rfl]
    rfl
  · rw [(caseitem_cover optsA false vstateA flA
      (.cons (.pragma flB true) .nil)).2.2.1 rfl
      ((caseitem_cover optsA false vstateA flA
        (.cons (.pragma flB true) .nil)).2.2.2 .nil .nil flB rfl)]
    rfl
  · rw [coverStmt_caseItem_state]

/-! ## Facts feeding the pragma-removal analysis -/

theorem hasOffL_append : ∀ l1 l2 : StmtList,
    hasOffL (l1 ++ l2) = (hasOffL l1 || hasOffL l2)
  | .nil, l2 => by rw [StmtList.nil_append]; rfl
  | .cons s r, l2 => by
      rw [StmtList.cons_append]
      show (hasOffS s || hasOffL (r ++ l2)) = ((hasOffS s || hasOffL r) || hasOffL l2)
      rw [hasOffL_append r l2, Bool.or_assoc]

theorem hasOffL_newCoverInc (g : Opts) (vs : VState) (fl : FLine)
    (hier pagePfx comment linescov : String) (offset : Nat) (traceName : String) :
    hasOffL (newCoverInc g vs fl hier pagePfx comment linescov offset traceName).1 = false := by
  rw [newCoverInc]
  dsimp only
  split <;> rfl

theorem hasOffL_emitCover (g : Opts) (vs : VState) (fl : FLine) (pagePfx tag : String)
    (offset : Nat) (st : CheckState) :
    hasOffL (emitCover g vs fl pagePfx tag offset st).1 = false := by
  rw [emitCover]
  exact hasOffL_newCoverInc ..

/-! The module-suppressed flag is never changed by any statement visit. -/
mutual
theorem coverStmt_inModOff (g : Opts) (m : Bool) (vs : VState) :
    ∀ s : Stmt, (coverStmt g m vs s).2.state.m_inModOff = vs.state.m_inModOff
  | .ifS fl thens elses => by rw [coverStmt_ifS_state]
  | .caseItem fl stmts => by rw [coverStmt_caseItem_state]
  | .stop fl => by rw [coverStmt_stop]
  | .pragma fl isOff => by
      rw [coverStmt_pragma]
      split
      · rfl
      · rfl
  | .coverB fl stmts covincs => by rw [coverStmt_coverB_state]
  | .beginB fl name stmts => by
      rw [coverStmt_beginB]
      dsimp only
      split
      · exact coverStmts_inModOff g false _ stmts
      · exact coverStmts_inModOff g false _ stmts
  | .ftask fl dpi stmts => by rw [coverStmt_ftask_state]
  | .whileS fl stmts => by rw [coverStmt_whileS_state]
  | .proced fl stmts => by rw [coverStmt_proced_state]
  | .coverInc fl d => by rw [coverStmt_coverInc]; rfl
  | .incAssign fl v => by rw [coverStmt_incAssign]; rfl
  | .other fl stmts => by
      rw [coverStmt_other]
      exact coverStmts_inModOff g false vs stmts
theorem coverStmts_inModOff (g : Opts) (m : Bool) (vs : VState) :
    ∀ l : StmtList, (coverStmts g m vs l).2.state.m_inModOff = vs.state.m_inModOff
  | .nil => rfl
  | .cons s rest => by
      rw [coverStmts_cons]
      rw [coverStmts_inModOff g false (coverStmt g m vs s).2 rest]
      exact coverStmt_inModOff g m vs s
end

/-! The enabled flag after a visit agrees with the noSkip mirror. -/
mutual
theorem coverStmt_on_agree (g : Opts) (m : Bool) (vs : VState) :
    ∀ s : Stmt, (coverStmt g m vs s).2.state.m_on
      = (noSkipS g vs.state.m_inModOff vs.state.m_on s).2
  | .ifS fl thens elses => by
      rw [coverStmt_ifS_state]
      simp only [noSkipS]
      split <;> rfl
  | .caseItem fl stmts => by
      rw [coverStmt_caseItem_state]
      simp only [noSkipS]
      split <;> rfl
  | .stop fl => by rw [coverStmt_stop]; rfl
  | .pragma fl isOff => by
      by_cases h : isOff = true
      · rw [coverStmt_pragma]
        simp only [noSkipS, h, if_true]
      · have h' : isOff = false := by simpa using h
        rw [coverStmt_pragma]
        simp only [noSkipS, h', Bool.false_eq_true, if_false]
        rfl
  | .coverB fl stmts covincs => by rw [coverStmt_coverB_state]; rfl
  | .beginB fl name stmts => by
      rw [coverStmt_beginB]
      dsimp only
      split
      · exact coverStmts_on_agree g false _ stmts
      · exact coverStmts_on_agree g false _ stmts
  | .ftask fl dpi stmts => by
      rw [coverStmt_ftask_state]
      simp only [noSkipS]
      split <;> rfl
  | .whileS fl stmts => by rw [coverStmt_whileS_state]; rfl
  | .proced fl stmts => by rw [coverStmt_proced_state]; rfl
  | .coverInc fl d => by rw [coverStmt_coverInc]; rfl
  | .incAssign fl v => by rw [coverStmt_incAssign]; rfl
  | .other fl stmts => by
      rw [coverStmt_other]
      exact coverStmts_on_agree g false vs stmts
theorem coverStmts_on_agree (g : Opts) (m : Bool) (vs : VState) :
    ∀ l : StmtList, (coverStmts g m vs l).2.state.m_on
      = (noSkipL g vs.state.m_inModOff vs.state.m_on l).2
  | .nil => rfl
  | .cons s rest => by
      rw [coverStmts_cons]
      rw [coverStmts_on_agree g false (coverStmt g m vs s).2 rest]
      rw [coverStmt_inModOff g m vs s, coverStmt_on_agree g m vs s]
      rfl
end

/-! Every scope-off pragma in a region the traversal iterates is removed:
if no skipped subtree holds a scope-off pragma, the output holds none. -/
mutual
theorem coverStmt_noskip (g : Opts) (m : Bool) (vs : VState) :
    ∀ s : Stmt, (noSkipS g vs.state.m_inModOff vs.state.m_on s).1 = true →
      hasOffO (coverStmt g m vs s).1 = false
  | .ifS fl thens elses, hyp => by
      by_cases hOn : vs.state.m_on = true
      · simp only [noSkipS, hOn, if_true] at hyp
        rw [Bool.and_eq_true] at hyp
        obtain ⟨ha, hb⟩ := hyp
        have hThens : hasOffL (coverStmts g false (createHandle fl vs) thens).1 = false :=
          coverStmts_noskip g false (createHandle fl vs) thens ha
        have hElses : ∀ mh vsT,
            hasOffL (coverStmts g mh
              (createHandle fl { lineTrack g fl vsT with state := vs.state }) elses).1
              = false := fun mh vsT =>
          coverStmts_noskip g mh
            (createHandle fl { lineTrack g fl vsT with state := vs.state }) elses hb
        rw [coverStmt_ifS]
        simp only [ifVisit, hOn, if_true]
        split
        · simp only [hasOffO, hasOffS, hasOffL_append, hasOffL_emitCover, hThens,
            hElses, Bool.or_self]
        · split
          · split
            · simp only [hasOffO, hasOffS, hasOffL_append, hasOffL_emitCover, hThens,
                hElses, Bool.or_self]
            · simp only [hasOffO, hasOffS, hThens, hElses, Bool.or_self]
          · split <;> split <;>
              simp only [hasOffO, hasOffS, hasOffL_append, hasOffL_emitCover, hThens,
                hElses, Bool.or_self]
      · have hOnf : vs.state.m_on = false := by simpa using hOn
        simp only [noSkipS, hOnf, Bool.false_eq_true, if_false, Bool.not_eq_true',
          Bool.or_eq_false_iff] at hyp
        rw [coverStmt_ifS]
        simp only [ifVisit, hOnf, Bool.false_eq_true, if_false]
        simp only [hasOffO, hasOffS, hyp.1, hyp.2, Bool.or_self]
  | .caseItem fl stmts, hyp => by
      by_cases hC : lineCoverageOn g vs.state fl = true
      · have hC' : lcOn g vs.state.m_inModOff vs.state.m_on fl = true := hC
        simp only [noSkipS, hC', if_true] at hyp
        have hBody : hasOffL (coverStmts g false (createHandle fl vs) stmts).1 = false :=
          coverStmts_noskip g false (createHandle fl vs) stmts hyp
        rw [coverStmt_caseItem]
        simp only [caseVisit, hC, if_true]
        split
        · simp only [hasOffO, hasOffS, hasOffL_append, hasOffL_emitCover, hBody,
            Bool.or_self]
        · simp only [hasOffO, hasOffS, hBody]
      · have hCf : lineCoverageOn g vs.state fl = false := by simpa using hC
        have hC' : lcOn g vs.state.m_inModOff vs.state.m_on fl = false := hCf
        simp only [noSkipS, hC', Bool.false_eq_true, if_false, Bool.not_eq_true'] at hyp
        rw [coverStmt_caseItem]
        simp only [caseVisit, hCf, Bool.false_eq_true, if_false]
        simp only [hasOffO, hasOffS, hyp]
  | .stop fl, _ => by rw [coverStmt_stop]; rfl
  | .pragma fl isOff, hyp => by
      by_cases h : isOff = true
      · rw [coverStmt_pragma]
        simp only [h, if_true]
        rfl
      · have h' : isOff = false := by simpa using h
        rw [coverStmt_pragma]
        simp only [h', Bool.false_eq_true, if_false]
        simp only [hasOffO, hasOffS, h']
  | .coverB fl stmts covincs, hyp => by
      simp only [noSkipS] at hyp
      rw [Bool.and_eq_true] at hyp
      obtain ⟨ha, hb⟩ := hyp
      have hStmts : hasOffL (coverStmts g false (createHandle fl vs) stmts).1 = false :=
        coverStmts_noskip g false (createHandle fl vs) stmts ha
      have hb' : (noSkipL g
          ((coverStmts g false (createHandle fl vs) stmts).2.state.m_inModOff)
          ((coverStmts g false (createHandle fl vs) stmts).2.state.m_on) covincs).1
          = true := by
        rw [coverStmts_inModOff, coverStmts_on_agree]
        exact hb
      have hCov : hasOffL (coverStmts g false
          (coverStmts g false (createHandle fl vs) stmts).2 covincs).1 = false :=
        coverStmts_noskip g false (coverStmts g false (createHandle fl vs) stmts).2
          covincs hb'
      rw [coverStmt_coverB]
      dsimp only
      split
      · simp only [hasOffO, hasOffS, hasOffL_append, hasOffL_newCoverInc, hStmts, hCov,
          Bool.or_self]
      · simp only [hasOffO, hasOffS, hStmts, hCov, Bool.or_self]
  | .beginB fl name stmts, hyp => by
      simp only [noSkipS] at hyp
      rw [coverStmt_beginB]
      dsimp only
      split
      · have hBody := coverStmts_noskip g false
          { vs with beginHier := vs.beginHier ++ (if vs.beginHier != "" then "." else "")
                                 ++ name } stmts hyp
        simp only [hasOffO, hasOffS, hBody]
      · have hBody := coverStmts_noskip g false vs stmts hyp
        simp only [hasOffO, hasOffS, hBody]
  | .ftask fl dpi stmts, hyp => by
      by_cases h : dpi = true
      · simp only [noSkipS, h, if_true, Bool.not_eq_true'] at hyp
        rw [coverStmt_ftask]
        simp only [h, if_true]
        simp only [hasOffO, hasOffS, hyp]
      · have h' : dpi = false := by simpa using h
        simp only [noSkipS, h', Bool.false_eq_true, if_false] at hyp
        have hBody : hasOffL (coverStmts g false (createHandle fl vs) stmts).1 = false :=
          coverStmts_noskip g false (createHandle fl vs) stmts hyp
        rw [coverStmt_ftask]
        simp only [h', Bool.false_eq_true, if_false]
        split
        · simp only [hasOffO, hasOffS, hasOffL_append, hasOffL_emitCover, hBody,
            Bool.or_self]
        · simp only [hasOffO, hasOffS, hBody]
  | .whileS fl stmts, hyp => by
      simp only [noSkipS] at hyp
      have hBody : hasOffL (coverStmts g false (createHandle fl vs) stmts).1 = false :=
        coverStmts_noskip g false (createHandle fl vs) stmts hyp
      rw [coverStmt_whileS]
      dsimp only
      split
      · simp only [hasOffO, hasOffS, hasOffL_append, hasOffL_emitCover, hBody,
          Bool.or_self]
      · simp only [hasOffO, hasOffS, hBody]
  | .proced fl stmts, hyp => by
      simp only [noSkipS] at hyp
      have hBody : hasOffL (coverStmts g false (createHandle fl vs) stmts).1 = false :=
        coverStmts_noskip g false (createHandle fl vs) stmts hyp
      rw [coverStmt_proced]
      dsimp only
      split
      · simp only [hasOffO, hasOffS, hasOffL_append, hasOffL_emitCover, hBody,
          Bool.or_self]
      · simp only [hasOffO, hasOffS, hBody]
  | .coverInc fl d, _ => by rw [coverStmt_coverInc]; rfl
  | .incAssign fl v, _ => by rw [coverStmt_incAssign]; rfl
  | .other fl stmts, hyp => by
      simp only [noSkipS] at hyp
      have hBody := coverStmts_noskip g false vs stmts hyp
      rw [coverStmt_other]
      simp only [hasOffO, hasOffS, hBody]
theorem coverStmts_noskip (g : Opts) (m : Bool) (vs : VState) :
    ∀ l : StmtList, (noSkipL g vs.state.m_inModOff vs.state.m_on l).1 = true →
      hasOffL (coverStmts g m vs l).1 = false
  | .nil, _ => rfl
  | .cons s rest, hyp => by
      simp only [noSkipL] at hyp
      rw [Bool.and_eq_true] at hyp
      obtain ⟨ha, hb⟩ := hyp
      have hb' : (noSkipL g ((coverStmt g m vs s).2.state.m_inModOff)
          ((coverStmt g m vs s).2.state.m_on) rest).1 = true := by
        rw [coverStmt_inModOff, coverStmt_on_agree]
        exact hb
      have hRest : hasOffL (coverStmts g false (coverStmt g m vs s).2 rest).1 = false :=
        coverStmts_noskip g false (coverStmt g m vs s).2 rest hb'
      have hHead : hasOffO (coverStmt g m vs s).1 = false :=
        coverStmt_noskip g m vs s ha
      rw [coverStmts_cons]
      rcases ho : (coverStmt g m vs s).1 with _ | s'
      · exact hRest
      · rw [ho] at hHead
        show (hasOffS s' || hasOffL (coverStmts g false (coverStmt g m vs s).2 rest).1)
          = false
        have hH : hasOffS s' = false := hHead
        rw [hRest, hH, Bool.or_self]
end

/-- Model of visit(AstNodeModule) on one non-nested module: a fresh
handle over an enabled state (suppressed when the module is the created
top shell), empty line and name tables, and an iteration of the module's
statements. -/
def coverModule (g : Opts) (isTop : Bool) (name : String) (fl : FLine)
    (stmts : StmtList) : StmtList × VState :=
  coverStmts g false
    ⟨⟨true, isTop, 1, fl⟩, 1, fun _ => [], [], [], [], "", name, false⟩ stmts

/-- C9 counterexample: a stop statement disables coverage, the following
conditional is then skipped whole (its children are not iterated), and
the scope-off pragma inside its branch survives the pass, so the output
tree still contains a scope-off pragma node. -/
theorem pragma_removal_counterexample :
    hasOffL (coverModule optsA false "top" flA
      (.cons (.stop flA)
        (.cons (.ifS flB (.cons (.pragma flB true) .nil) .nil) .nil))).1 = true := rfl

/-- C9 (amended): every scope-off pragma the traversal actually visits is
unlinked and deleted (the visit of the pragma returns no replacement
node), and consequently, whenever no subtree skipped by the traversal (a
conditional met with coverage already off, a case arm without active
line coverage, or a DPI-imported task) contains a scope-off pragma, the
module's output statement tree contains no scope-off pragma at all. -/
theorem pragma_removal_reached (g : Opts) (isTop : Bool) (name : String) (fl : FLine)
    (stmts : StmtList)
    (h : (noSkipL g isTop true stmts).1 = true) :
    hasOffL (coverModule g isTop name fl stmts).1 = false ∧
    (∀ m (vs : VState) (flp : FLine),
      (coverStmt g m vs (.pragma flp true)).1 = none) :=
  ⟨coverStmts_noskip g false
    ⟨⟨true, isTop, 1, fl⟩, 1, fun _ => [], [], [], [], "", name, false⟩ stmts h,
   fun _ _ _ => rfl⟩

/-- C9 witness: a conditional visited with coverage on has the scope-off
pragma inside its branch deleted. -/
theorem pragma_removal_reached_witness :
    hasOffL (coverModule optsA false "top" flA
      (.cons (.ifS flA (.cons (.pragma flA true) .nil) .nil) .nil)).1 = false :=
  (pragma_removal_reached optsA false "top" flA
    (.cons (.ifS flA (.cons (.pragma flA true) .nil) .nil) .nil) rfl).1

/-! ## Error characterization of the toggle decomposition -/

theorem intRangeList_not_isEmpty (a b : Int) :
    (!(intRangeList a b).isEmpty) = decide (a ≤ b) := by
  by_cases h : a ≤ b
  · have hlen : 0 < (b - a + 1).toNat := by omega
    have : intRangeList a b ≠ [] := by
      simp only [intRangeList]
      intro hc
      have := congrArg List.length hc
      simp at this
      omega
    rcases he : intRangeList a b with _ | ⟨y, ys⟩
    · exact absurd he this
    · simp [h]
  · have : intRangeList a b = [] := intRangeList_empty (by omega)
    rw [this]
    simp [h]

theorem exceptBindError {ε α β : Type} (e : ε) (f : α → Except ε β) :
    (Except.error e >>= f) = Except.error e := rfl

theorem exceptBindOk {ε α β : Type} (v : α) (f : α → Except ε β) :
    (Except.ok v >>= f) = f v := rfl

theorem isErr_exceptMapCat {α : Type} :
    ∀ (l : List α) (f : α → Except String (List ToggleLeaf)) (c : Bool),
      (∀ i ∈ l, isErr (f i) = c) → isErr (exceptMapCat f l) = (!l.isEmpty && c)
  | [], f, c, _ => rfl
  | x :: xs, f, c, h => by
      have hx := h x (List.mem_cons_self x xs)
      have ih := isErr_exceptMapCat xs f c (fun i hi => h i (List.mem_cons_of_mem x hi))
      show isErr (f x >>= fun a => exceptMapCat f xs >>= fun b => pure (a ++ b)) = _
      rcases hfx : f x with e | v
      · rw [hfx] at hx
        rw [exceptBindError]
        have hc : c = true := by simpa [isErr] using hx.symm
        simp [isErr, hc]
      · rw [hfx] at hx
        have hc : c = false := by simpa [isErr] using hx.symm
        rw [exceptBindOk]
        rcases hxs : exceptMapCat f xs with e2 | v2
        · rw [hxs] at ih
          rw [exceptBindError]
          subst hc
          simp only [isErr] at ih ⊢
          simp only [List.isEmpty_cons, Bool.not_false, Bool.true_and, Bool.and_false] at ih ⊢
          exact ih
        · rw [exceptBindOk]
          subst hc
          rfl

/-! Definitional unfoldings of the toggle recursion arms used in proofs. -/

theorem toggleVarRecurse_unpackArray (vn : String) (lo hi : Int) (sub : DType) (d : Int)
    (above : ToggleEnt) :
    toggleVarRecurse vn (.unpackArray lo hi sub) d above =
      exceptMapCat (fun i =>
        toggleVarRecurse vn sub (d + 1)
          ⟨above.comment ++ "[" ++ ⟨intChars i⟩ ++ "]",
           .arraySel above.varRefp (i - lo), .arraySel above.chgRefp (i - lo)⟩)
        (intRangeList lo hi) := rfl

theorem toggleVarRecurse_packArray (vn : String) (lo hi : Int) (sub : DType) (d : Int)
    (above : ToggleEnt) :
    toggleVarRecurse vn (.packArray lo hi sub) d above =
      exceptMapCat (fun i =>
        toggleVarRecurse vn sub (d + 1)
          ⟨above.comment ++ "[" ++ ⟨intChars i⟩ ++ "]",
           .sel above.varRefp ((i - lo) * sub.width) sub.width,
           .sel above.chgRefp ((i - lo) * sub.width) sub.width⟩)
        (intRangeList lo hi) := rfl

/-! The decomposition fails exactly when it reaches an unsupported kind. -/
mutual
theorem isErr_toggleVarRecurse (vn : String) :
    ∀ (dt : DType) (d : Int) (above : ToggleEnt),
      isErr (toggleVarRecurse vn dt d above) = hasUnsupReach dt
  | .basic ranged lo hi, d, above => by cases ranged <;> rfl
  | .unpackArray lo hi sub, d, above => by
      rw [toggleVarRecurse_unpackArray]
      rw [isErr_exceptMapCat (intRangeList lo hi) _ (hasUnsupReach sub)
        (fun i _ => isErr_toggleVarRecurse vn sub (d + 1) _)]
      show _ = (decide (lo ≤ hi) && hasUnsupReach sub)
      rw [intRangeList_not_isEmpty]
  | .packArray lo hi sub, d, above => by
      rw [toggleVarRecurse_packArray]
      rw [isErr_exceptMapCat (intRangeList lo hi) _ (hasUnsupReach sub)
        (fun i _ => isErr_toggleVarRecurse vn sub (d + 1) _)]
      show _ = (decide (lo ≤ hi) && hasUnsupReach sub)
      rw [intRangeList_not_isEmpty]
  | .structT packed ms, d, above => by
      cases packed
      · exact isErr_toggleUnpackedMems vn ms d above
      · exact isErr_togglePackedMems vn ms d above
  | .unionT .nil, d, above => rfl
  | .unionT (.cons (.mk nm lsb sub) rest), d, above =>
      isErr_toggleVarRecurse vn sub (d + 1)
        ⟨above.comment ++ "." ++ nm, above.varRefp, above.chgRefp⟩
  | .unsupported nm, d, above => rfl
theorem isErr_togglePackedMems (vn : String) :
    ∀ (ms : MemList) (d : Int) (above : ToggleEnt),
      isErr (togglePackedMems vn ms d above) = memsUnsupReach ms
  | .nil, d, above => rfl
  | .cons (.mk nm lsb sub) rest, d, above => by
      have ih1 := isErr_toggleVarRecurse vn sub (d + 1)
        ⟨above.comment ++ "." ++ nm,
         .sel above.varRefp lsb sub.width, .sel above.chgRefp lsb sub.width⟩
      have ih2 := isErr_togglePackedMems vn rest d above
      show isErr (toggleVarRecurse vn sub (d + 1) _ >>= fun a =>
        togglePackedMems vn rest d above >>= fun b => pure (a ++ b)) = _
      rcases h1 : toggleVarRecurse vn sub (d + 1)
        ⟨above.comment ++ "." ++ nm,
         .sel above.varRefp lsb sub.width, .sel above.chgRefp lsb sub.width⟩ with e | v
      · rw [h1] at ih1
        rw [exceptBindError]
        simp only [isErr] at ih1
        show _ = (hasUnsupReach sub || memsUnsupReach rest)
        rw [← ih1]
        rfl
      · rw [h1] at ih1
        rw [exceptBindOk]
        simp only [isErr] at ih1
        show _ = (hasUnsupReach sub || memsUnsupReach rest)
        rw [← ih1, ← ih2, Bool.false_or]
        rcases h2 : togglePackedMems vn rest d above with e2 | v2
        · rw [exceptBindError]
        · rw [exceptBindOk]
          rfl
theorem isErr_toggleUnpackedMems (vn : String) :
    ∀ (ms : MemList) (d : Int) (above : ToggleEnt),
      isErr (toggleUnpackedMems vn ms d above) = memsUnsupReach ms
  | .nil, d, above => rfl
  | .cons (.mk nm lsb sub) rest, d, above => by
      have ih1 := isErr_toggleVarRecurse vn sub (d + 1)
        ⟨above.comment ++ "." ++ nm,
         .structSel above.varRefp nm, .structSel above.varRefp nm⟩
      have ih2 := isErr_toggleUnpackedMems vn rest d above
      show isErr (toggleVarRecurse vn sub (d + 1) _ >>= fun a =>
        toggleUnpackedMems vn rest d above >>= fun b => pure (a ++ b)) = _
      rcases h1 : toggleVarRecurse vn sub (d + 1)
        ⟨above.comment ++ "." ++ nm,
         .structSel above.varRefp nm, .structSel above.varRefp nm⟩ with e | v
      · rw [h1] at ih1
        rw [exceptBindError]
        simp only [isErr] at ih1
        show _ = (hasUnsupReach sub || memsUnsupReach rest)
        rw [← ih1]
        rfl
      · rw [h1] at ih1
        rw [exceptBindOk]
        simp only [isErr] at ih1
        show _ = (hasUnsupReach sub || memsUnsupReach rest)
        rw [← ih1, ← ih2, Bool.false_or]
        rcases h2 : toggleUnpackedMems vn rest d above with e2 | v2
        · rw [exceptBindError]
        · rw [exceptBindOk]
          rfl
end

/-- C1: evaluation of the toggle decomposition on an unpacked struct with
a single one-bit member.  The leaf emitted through the unpacked-struct
member carries two references that are BOTH member selects rooted in the
original variable: the second reference is built from the var side, not
the shadow side, so it is not a reference into the shadow variable as
specified (the code clones above.m_varRefp for chgRefp in the
unpacked-struct arm). -/
theorem unpacked_struct_shadow_ref_bug :
    toggleVar "s" (.structT false (.cons (.mk "a" 0 (.basic false 0 0)) .nil)) =
      .ok [⟨"s.a", .structSel (.varRef .orig .read) "a",
            .structSel (.varRef .orig .read) "a"⟩] ∧
    TExpr.rootVar (.structSel (.varRef .orig .read) "a") = .orig ∧
    (∀ dt : DType,
      toggleVar "s" dt = toggleVarRecurse "s" dt 0
        ⟨"", .varRef .orig .read, .varRef .shadow .write⟩) :=
  ⟨rfl, rfl, fun _ => rfl⟩

/-- C7: for a union type the decomposition descends into the first
declared member only: the result is independent of all later members,
equals the recursion into the first member's type with the member name
appended to the comment path and the references passed through
unchanged, and an empty union produces nothing. -/
theorem union_first_member_only (vn nm : String) (lsb : Int) (sub : DType)
    (rest rest2 : MemList) (d : Int) (above : ToggleEnt) :
    toggleVarRecurse vn (.unionT (.cons (.mk nm lsb sub) rest)) d above
      = toggleVarRecurse vn sub (d + 1)
          ⟨above.comment ++ "." ++ nm, above.varRefp, above.chgRefp⟩
    ∧ toggleVarRecurse vn (.unionT (.cons (.mk nm lsb sub) rest)) d above
      = toggleVarRecurse vn (.unionT (.cons (.mk nm lsb sub) rest2)) d above
    ∧ toggleVarRecurse vn (.unionT .nil) d above = .ok [] :=
  ⟨rfl, rfl, rfl⟩

/-- C7 witness: the union of a 2-bit member a and an 8-bit member b
produces toggle points exactly for the bit lanes of a, never for b. -/
theorem union_first_member_only_witness :
    toggleVar "u" (.unionT (.cons (.mk "a" 0 (.basic true 0 1))
        (.cons (.mk "b" 0 (.basic true 0 7)) .nil)))
      = toggleVar "u" (.unionT (.cons (.mk "a" 0 (.basic true 0 1)) .nil)) ∧
    toggleVar "u" (.unionT (.cons (.mk "a" 0 (.basic true 0 1))
        (.cons (.mk "b" 0 (.basic true 0 7)) .nil)))
      = .ok [⟨"u.a[0]", .sel (.varRef .orig .read) 0 1, .sel (.varRef .shadow .write) 0 1⟩,
             ⟨"u.a[1]", .sel (.varRef .orig .read) 1 1, .sel (.varRef .shadow .write) 1 1⟩] :=
  ⟨(union_first_member_only "u" "a" 0 (.basic true 0 1)
      (.cons (.mk "b" 0 (.basic true 0 7)) .nil) .nil 0
      ⟨"", .varRef .orig .read, .varRef .shadow .write⟩).2.1, rfl⟩

/-- C8: the toggle decomposition raises its fatal error exactly when the
recursion reaches a data-type kind it does not know (an unsupported node
actually entered: arrays with empty index ranges never recurse and a
union is entered through its first member only), and on an unsupported
node the error carries the fatal message naming the offending type; no
leaf list is produced in that case since the error branch carries none. -/
theorem toggle_unsupported_fatal (vn : String) (dt : DType) (d : Int) (above : ToggleEnt) :
    isErr (toggleVarRecurse vn dt d above) = hasUnsupReach dt ∧
    (∀ nm, dt = .unsupported nm →
      toggleVarRecurse vn dt d above =
        .error ("Unexpected node data type in toggle coverage generation: " ++ nm)) :=
  ⟨isErr_toggleVarRecurse vn dt d above, by rintro nm rfl; rfl⟩

/-- C8 witness: a concrete unsupported kind makes the decomposition fail
with the fatal message, and a concrete supported kind never fails. -/
theorem toggle_unsupported_fatal_witness :
    toggleVarRecurse "x" (.unsupported "ENUMDTYPE") 0
        ⟨"", .varRef .orig .read, .varRef .shadow .write⟩ =
      .error "Unexpected node data type in toggle coverage generation: ENUMDTYPE" ∧
    isErr (toggleVarRecurse "x" (.unsupported "ENUMDTYPE") 0
        ⟨"", .varRef .orig .read, .varRef .shadow .write⟩) = true ∧
    isErr (toggleVarRecurse "x" (.unpackArray 0 3 (.basic true 0 1)) 0
        ⟨"", .varRef .orig .read, .varRef .shadow .write⟩) = false := by
  refine ⟨?_, ?_, ?_⟩
  · exact (toggle_unsupported_fatal "x" (.unsupported "ENUMDTYPE") 0
      ⟨"", .varRef .orig .read, .varRef .shadow .write⟩).2 "ENUMDTYPE" rfl
  · rw [(toggle_unsupported_fatal "x" (.unsupported "ENUMDTYPE") 0
      ⟨"", .varRef .orig .read, .varRef .shadow .write⟩).1]
    rfl
  · rw [(toggle_unsupported_fatal "x" (.unpackArray 0 3 (.basic true 0 1)) 0
      ⟨"", .varRef .orig .read, .varRef .shadow .write⟩).1]
    rfl
